import Mathlib

/-!
# Shallow embedding of the core of `lidrup-check.c`

This file embeds, in Lean, the data model and the checking procedures of
the LIDRUP proof checker (`src/lidrup-check.c`) and proves properties of
the embedded functions.

Modelling conventions:

* A literal is an `Int` (the C code uses a nonzero signed 32-bit integer);
  a clause identifier is an `Int` (the C code uses a positive `int64_t`).
* The shared boolean array `marks[lit]` is modelled as the finite set of
  literals currently marked (`Marks := Finset Int`); `marks[l] = true`
  corresponds to `l ∈ m`.
* The assignment arrays `values[lit] ∈ {-1,0,1}` together with the
  invariant `values[-l] = -values[l]` are modelled by the finite set
  `pos` of literals currently assigned true; `values[l]` is recovered by
  `valueOf pos l`.  The `trail` is the list of assigned literals in
  assignment order, as in the C code.
* The two open-addressed hash tables (`active`, `inactive`) implement
  finite maps from clause identifier to clause pointer; they are modelled
  as association lists `List (Int × Nat)` from identifier to a heap
  reference.  Clause memory is a heap `List (Option Clause)`; `free`
  replaces the heap cell by `none`.  Removal from a table is by clause
  identity (reference), exactly as `remove_clause` removes the slot
  holding the given pointer.
* Every error (`parse_error`, `check_error`, `line_error`, fatal errors)
  terminates the process; a function that can error is embedded as an
  `Except`-valued function whose `.error` result models process exit.
-/

namespace LidrupCheck

/-- Clause record (`struct clause` in `lidrup-check.c`): identifier,
`input` flag, mutable `weakened` flag, `tautological` flag computed at
allocation, and the literal payload `lits[]`.  (The debug-only `lineno`
field is omitted.) -/
structure Clause where
  id : Int
  input : Bool
  weakened : Bool
  tautological : Bool
  lits : List Int
deriving DecidableEq, Repr

/-- The shared literal mark array `marks`, as the set of marked literals. -/
abbrev Marks := Finset Int

/-- `mark_literals`: set `marks[l] = true` for each `l` of the sequence. -/
def markLiterals (m : Marks) (lits : List Int) : Marks :=
  lits.foldl (fun m l => insert l m) m

/-- `unmark_literals`: set `marks[l] = false` for each `l` of the sequence. -/
def unmarkLiterals (m : Marks) (lits : List Int) : Marks :=
  lits.foldl (fun m l => m.erase l) m

/-- `subset_literals`: mark `b`, test that every literal of `a` is marked,
unmark `b`; returns the test result and the marks array afterwards. -/
def subsetLiterals (a b : List Int) (m : Marks) : Bool × Marks :=
  let m1 := markLiterals m b
  (a.all (fun l => decide (l ∈ m1)), unmarkLiterals m1 b)

/-- `match_literals`: set equality as two subset tests (the second subset
test is skipped when the first fails, as `&&` short-circuits in C). -/
def matchLiterals (a b : List Int) (m : Marks) : Bool × Marks :=
  let r1 := subsetLiterals a b m
  if r1.1 then
    let r2 := subsetLiterals b a r1.2
    (r2.1, r2.2)
  else
    (false, r1.2)

/-- Loop of `line_is_tautological`: literals not yet marked are marked,
and the result becomes true when the negation is already marked. -/
def tautLoop : List Int → Marks → Bool → Bool × Marks
  | [], m, r => (r, m)
  | l :: ls, m, r =>
    if l ∈ m then tautLoop ls m r
    else tautLoop ls (insert l m) (r || decide ((-l) ∈ m))

/-- `line_is_tautological`: runs `tautLoop` on the line and unmarks it. -/
def lineIsTautological (lits : List Int) (m : Marks) : Bool × Marks :=
  let r := tautLoop lits m false
  (r.1, unmarkLiterals r.2 lits)

/-! Basic lemmas about the marks model. -/

theorem markLiterals_eq_union (lits : List Int) (m : Marks) :
    markLiterals m lits = m ∪ lits.toFinset := by
  induction lits generalizing m with
  | nil => simp [markLiterals]
  | cons l ls ih =>
      simp only [markLiterals, List.foldl_cons] at *
      rw [ih (insert l m)]
      simp [Finset.insert_union, Finset.union_insert]

theorem unmarkLiterals_eq_sdiff (lits : List Int) (m : Marks) :
    unmarkLiterals m lits = m \ lits.toFinset := by
  induction lits generalizing m with
  | nil => simp [unmarkLiterals]
  | cons l ls ih =>
      simp only [unmarkLiterals, List.foldl_cons] at *
      rw [ih (m.erase l), Finset.erase_eq, List.toFinset_cons,
        Finset.insert_eq, sdiff_sdiff]
      rfl

theorem unmark_mark_empty (lits : List Int) :
    unmarkLiterals (markLiterals ∅ lits) lits = ∅ := by
  rw [markLiterals_eq_union, unmarkLiterals_eq_sdiff]
  simp

/-! ## Errors

All error channels of the checker (`parse_error`, `check_error`,
`line_error`, `fatal_error`) terminate the process; they are collected in
one inductive type.  The constructor records which message fired. -/

inductive Error where
  /-- `parse_error`: malformed or unexpected line. -/
  | parseError
  /-- `check_error "inconsistent '%c' line with literals %d and %d"`. -/
  | inconsistentLine (type : Char)
  /-- `check_error "inconsistent '%c' line on literal %d with line ..."`. -/
  | inconsistentWithSaved (type : Char)
  /-- model line does not satisfy this input clause (`check_satisfied_clause`). -/
  | unsatisfiedClause (c : Clause)
  /-- `check_error "model does not satisfy query literal %d ..."`. -/
  | missesQueryLiteral (l : Int)
  /-- `check_error "core literal %d not in query ..."`. -/
  | coreLiteralNotInQuery (l : Int)
  /-- `check_error "literal %d nor %d in query ..."`. -/
  | variableNotInQuery (l : Int)
  /-- `check_error` of `check_saved_failed_literals_match_core`. -/
  | failedLiteralClash (l : Int)
  /-- `check_error "... line does not match ... line"` (`match_saved`). -/
  | savedMismatch (type : Char)
  /-- `line_error "negative antecedent %PRId64 unsupported"`. -/
  | negativeAntecedent (id : Int)
  /-- `line_error "antecedent %PRId64 weakened"`. -/
  | antecedentWeakened (id : Int)
  /-- `line_error "could not find antecedent %PRId64"`. -/
  | antecedentNotFound (id : Int)
  /-- `line_error "antecedent %PRId64 not resolvable"`. -/
  | antecedentNotResolvable (id : Int)
  /-- `line_error "%s resolution check failed:"`. -/
  | resolutionFailed
  /-- `line_error "clause identifier %PRId64 already used"`. -/
  | idAlreadyUsed (id : Int)
  /-- `line_error "clause identifier %PRId64 actively in use"`. -/
  | idActivelyInUse (id : Int)
  /-- `line_error "clause identifier %PRId64 inactive but in use"`. -/
  | idInactiveInUse (id : Int)
  /-- `line_error "could not find and delete clause %PRId64"`. -/
  | cannotDelete (id : Int)
  /-- `line_error "could not find and weaken clause %PRId64"`. -/
  | cannotWeaken (id : Int)
  /-- `line_error "could not find and restore weakened clause %PRId64"`. -/
  | cannotRestore (id : Int)
  /-- `fatal_error "query already concluded"`. -/
  | queryAlreadyConcluded
deriving DecidableEq, Repr

/-! ## Low-level line checks (marks based)

Each function takes and returns the marks array, so that the mark
discipline of the C code is visible in the embedding.  An `.error`
result models process termination. -/

/-- Loop of `check_line_consistency`: fail when the negation of the
current literal is already marked, else mark it. -/
def consistencyLoop (type : Char) : List Int → Marks → Except Error Marks
  | [], m => .ok m
  | l :: ls, m =>
    if (-l) ∈ m then .error (.inconsistentLine type)
    else consistencyLoop type ls (insert l m)

/-- `check_line_consistency`: no variable occurs with both polarities in
the line; unmarks the line afterwards. -/
def checkLineConsistency (type : Char) (lits : List Int) (m : Marks) :
    Except Error Marks :=
  (consistencyLoop type lits m).map (fun m1 => unmarkLiterals m1 lits)

/-- `check_line_consistent_with_saved`: mark the line, fail when a saved
literal occurs negated in the line, unmark the line. -/
def checkLineConsistentWithSaved (type : Char) (lits saved : List Int)
    (m : Marks) : Except Error Marks :=
  if saved.any (fun l => decide ((-l) ∈ markLiterals m lits)) then
    .error (.inconsistentWithSaved type)
  else
    .ok (unmarkLiterals (markLiterals m lits) lits)

/-- `check_satisfied_clause`: a tautological clause is skipped, otherwise
some literal of the clause must be marked (i.e. occur in the model line). -/
def checkSatisfiedClause (m1 : Marks) (c : Clause) : Except Error Unit :=
  if c.tautological then .ok ()
  else if c.lits.any (fun l => decide (l ∈ m1)) then .ok ()
  else .error (.unsatisfiedClause c)

/-- `check_line_satisfies_input_clauses`: mark the model line, check every
clause of the `input_clauses` list, unmark the line. -/
def checkLineSatisfiesInputClauses (lits : List Int)
    (inputClauses : List Clause) (m : Marks) : Except Error Marks :=
  match inputClauses.find? (fun c =>
      !c.tautological &&
      !(c.lits.any (fun l => decide (l ∈ markLiterals m lits)))) with
  | some c => .error (.unsatisfiedClause c)
  | none => .ok (unmarkLiterals (markLiterals m lits) lits)

/-- `check_line_satisfies_query`: mark the line, require every query
literal to be marked, unmark the line. -/
def checkLineSatisfiesQuery (lits query : List Int) (m : Marks) :
    Except Error Marks :=
  match query.find? (fun l => !(decide (l ∈ markLiterals m lits))) with
  | some l => .error (.missesQueryLiteral l)
  | none => .ok (unmarkLiterals (markLiterals m lits) lits)

/-- `check_core_subset_of_query`: mark the query, require every line
literal to be marked, unmark the query. -/
def checkCoreSubsetOfQuery (lits query : List Int) (m : Marks) :
    Except Error Marks :=
  match lits.find? (fun l => !(decide (l ∈ markLiterals m query))) with
  | some l => .error (.coreLiteralNotInQuery l)
  | none => .ok (unmarkLiterals (markLiterals m query) query)

/-- `check_line_variables_subset_of_query`: mark the query, require each
line literal to occur in the query in either polarity, unmark the query. -/
def checkLineVariablesSubsetOfQuery (lits query : List Int) (m : Marks) :
    Except Error Marks :=
  match lits.find? (fun l =>
      !(decide (l ∈ markLiterals m query)) &&
      !(decide ((-l) ∈ markLiterals m query))) with
  | some l => .error (.variableNotInQuery l)
  | none => .ok (unmarkLiterals (markLiterals m query) query)

/-- `check_saved_failed_literals_match_core`: mark the proof core line,
fail when a saved failed literal occurs negated in the core, then clear
the line's marks (the C code clears them twice: once by `unmark_line` and
once by an explicit loop; the double clearing is kept). -/
def checkSavedFailedLiteralsMatchCore (lits saved : List Int) (m : Marks) :
    Except Error Marks :=
  match saved.find? (fun l => decide ((-l) ∈ markLiterals m lits)) with
  | some l => .error (.failedLiteralClash (-l))
  | none =>
    .ok (unmarkLiterals (unmarkLiterals (markLiterals m lits) lits) lits)

/-- `match_saved`: set equality of the current line with the saved line
via `match_literals`; failure is a `check_error`. -/
def matchSaved (type : Char) (lits saved : List Int) (m : Marks) :
    Except Error Marks :=
  let r := matchLiterals lits saved m
  if r.1 then .ok r.2 else .error (.savedMismatch type)

/-! ## Assignment, trail, backtracking

The C code keeps `values[l] ∈ {-1,0,1}` with `values[-l] = -values[l]`
and pushes each assigned literal on `trail`.  The pair of arrays is
represented by the set `pos` of literals assigned true. -/

/-- State of the assignment: the set of true literals and the trail. -/
structure PropState where
  pos : Finset Int
  trail : List Int
deriving DecidableEq

/-- `values[l]` recovered from the set of true literals. -/
def valueOf (pos : Finset Int) (l : Int) : Int :=
  if l ∈ pos then 1 else if (-l) ∈ pos then -1 else 0

/-- `assign`: set `values[l] = 1`, `values[-l] = -1`, push `l` on the
trail. -/
def assign (s : PropState) (l : Int) : PropState :=
  ⟨insert l s.pos, s.trail ++ [l]⟩

/-- `backtrack`: unassign every literal on the trail and truncate the
trail to empty. -/
def backtrack (s : PropState) : PropState :=
  ⟨s.trail.foldl (fun p l => p.erase l) s.pos, []⟩

/-- The clean state: no literal assigned, empty trail.  This is the state
of `values`/`trail` whenever the checker is between lines. -/
def cleanState : PropState := ⟨∅, []⟩

/-! ## The RUP implication check (`check_implied`) -/

/-- First phase of `check_implied`: for each literal of the line, with
`sl = sign * lit`, skip if `values[sl] < 0` (duplicate), abort with
success if `values[sl] > 0` (tautological case), else assign `-sl`.
Returns whether the tautological early success fired, together with the
assignment state at that point. -/
def assumeLits (sign : Int) : List Int → PropState → Bool × PropState
  | [], s => (false, s)
  | l :: ls, s =>
    let v := valueOf s.pos (sign * l)
    if v < 0 then assumeLits sign ls s
    else if v > 0 then (true, s)
    else assumeLits sign ls (assign s (-(sign * l)))

/-- Inner loop of the antecedent phase: iterate the clause's literals,
skipping falsified ones; `unit` holds the non-falsified literal seen so
far (`0` if none); a second distinct non-falsified literal is an error;
a non-falsified unassigned literal is assigned. -/
def resolveLoop : List Int → Int → PropState → Except Unit (Int × PropState)
  | [], unit, s => .ok (unit, s)
  | l :: ls, unit, s =>
    let v := valueOf s.pos l
    if v < 0 then resolveLoop ls unit s
    else if unit ≠ 0 ∧ unit ≠ l then .error ()
    else resolveLoop ls l (if v = 0 then assign s l else s)

/-- Antecedent phase of `check_implied` over the id list of the line.
The two hash tables are abstracted to the finite maps they implement.
`.ok s` means the resolution produced a conflict (the check succeeds,
with `s` the assignment state to be backtracked); exhausting the list is
the `resolution check failed` line error. -/
def checkAntecedents (act inact : Int → Option Clause) :
    List Int → PropState → Except Error PropState
  | [], _s => .error .resolutionFailed
  | id :: rest, s =>
    if id < 0 then .error (.negativeAntecedent id)
    else
      match act id with
      | none =>
        if (inact id).isSome then .error (.antecedentWeakened id)
        else .error (.antecedentNotFound id)
      | some c =>
        match resolveLoop c.lits 0 s with
        | .error _ => .error (.antecedentNotResolvable id)
        | .ok r => if r.1 = 0 then .ok r.2 else checkAntecedents act inact rest r.2

/-- The ids consulted by the antecedent phase, in order: every id is
visited once until the phase stops (by error or by conflict). -/
def anteTrace (act inact : Int → Option Clause) :
    List Int → PropState → List Int
  | [], _s => []
  | id :: rest, s =>
    if id < 0 then [id]
    else
      match act id with
      | none => [id]
      | some c =>
        match resolveLoop c.lits 0 s with
        | .error _ => [id]
        | .ok r => if r.1 = 0 then [id] else id :: anteTrace act inact rest r.2

/-- `check_implied`: skip if the formula is already inconsistent; assume
the (signed) negation of the line; on tautology succeed; otherwise replay
the antecedents; on success backtrack.  `.ok` carries the assignment
state after the call returns. -/
def checkImplied (inconsistent : Bool) (act inact : Int → Option Clause)
    (lits ids : List Int) (sign : Int) (s : PropState) :
    Except Error PropState :=
  if inconsistent then .ok s
  else if (assumeLits sign lits s).1 then
    .ok (backtrack (assumeLits sign lits s).2)
  else
    (checkAntecedents act inact ids (assumeLits sign lits s).2).map backtrack

/-! ## Clause store and identifier index

Clause memory is a heap; a reference (`Nat`) stands for the C pointer.
The two open-addressed hash tables keyed by clause identifier are
modelled as association lists from identifier to reference: `find_clause`
is lookup by identifier, `insert_clause` adds an entry, `remove_clause`
removes the entry holding the given reference (removal by identity, as
in the C code where the slot holding the pointer becomes a tombstone). -/

/-- A table from clause identifier to clause reference. -/
abbrev Table := List (Int × Nat)

/-- `find_clause`: look up a clause reference by identifier. -/
def lookupTbl (tbl : Table) (id : Int) : Option Nat :=
  (tbl.find? (fun e => e.1 == id)).map (fun e => e.2)

/-- `remove_clause`: remove the entry holding this clause reference. -/
def removeEntry (tbl : Table) (r : Nat) : Table :=
  tbl.eraseP (fun e => e.2 == r)

/-- Global clause state: heap, the two identifier tables, the
`input_clauses` list (references, in introduction order) and the
`no-reuse` bit-set of used identifiers. -/
structure Store where
  heap : List (Option Clause)
  active : Table
  inactive : Table
  inputClauses : List Nat
  used : List Int
deriving DecidableEq

/-- The empty store (program start). -/
def Store.empty : Store := ⟨[], [], [], [], []⟩

/-- Dereference a clause. -/
def Store.clauseAt (st : Store) (r : Nat) : Option Clause :=
  (st.heap.getD r none)

/-- Clause lookup through a table. -/
def Store.findActiveRef (st : Store) (id : Int) : Option Nat :=
  lookupTbl st.active id

def Store.findInactiveRef (st : Store) (id : Int) : Option Nat :=
  lookupTbl st.inactive id

/-- `find_clause (&active, id)` as a map to clauses. -/
def Store.findActive (st : Store) (id : Int) : Option Clause :=
  (st.findActiveRef id).bind st.clauseAt

/-- `find_clause (&inactive, id)` as a map to clauses. -/
def Store.findInactive (st : Store) (id : Int) : Option Clause :=
  (st.findInactiveRef id).bind st.clauseAt

/-- `allocate_clause`: build the clause record from the parsed line
(identifier, literals copied verbatim, `tautological` computed by
`line_is_tautological` on clean marks), append it to the heap and, if it
is an input clause, to the `input_clauses` list.  Returns the new store
and the reference of the clause. -/
def Store.allocateClause (st : Store) (input : Bool) (id : Int)
    (lits : List Int) : Store × Nat :=
  let c : Clause :=
    { id := id, input := input, weakened := false,
      tautological := (lineIsTautological lits ∅).1, lits := lits }
  let r := st.heap.length
  ({ st with
      heap := st.heap ++ [some c],
      inputClauses := if input then st.inputClauses ++ [r] else st.inputClauses },
    r)

/-- `free_clause`: release the clause memory. -/
def Store.freeClause (st : Store) (r : Nat) : Store :=
  { st with heap := st.heap.set r none }

/-- Update the `weakened` flag of the clause at `r` in place. -/
def Store.setWeakened (st : Store) (r : Nat) (b : Bool) : Store :=
  { st with
      heap := st.heap.set r
        (match st.heap.getD r none with
         | some c => some { c with weakened := b }
         | none => none) }

/-- `insert_clause (&active, c)`. -/
def Store.insertActive (st : Store) (r : Nat) : Store :=
  match st.clauseAt r with
  | some c => { st with active := (c.id, r) :: st.active }
  | none => st

/-- `insert_clause (&inactive, c)`. -/
def Store.insertInactive (st : Store) (r : Nat) : Store :=
  match st.clauseAt r with
  | some c => { st with inactive := (c.id, r) :: st.inactive }
  | none => st

/-- `remove_clause (&active, c)`. -/
def Store.removeActive (st : Store) (r : Nat) : Store :=
  { st with active := removeEntry st.active r }

/-- `remove_clause (&inactive, c)`. -/
def Store.removeInactive (st : Store) (r : Nat) : Store :=
  { st with inactive := removeEntry st.inactive r }

/-- `delete_clause`: remove from the active table; free the memory for a
learned clause, keep it for an input clause (input clauses stay on the
`input_clauses` list for later model checks). -/
def Store.deleteClause (st : Store) (r : Nat) : Store :=
  let st1 := st.removeActive r
  match st.clauseAt r with
  | some c => if c.input then st1 else st1.freeClause r
  | none => st1.freeClause r

/-- `weaken_clause`: set the `weakened` flag, move the clause from the
active to the inactive table. -/
def Store.weakenClause (st : Store) (r : Nat) : Store :=
  ((st.setWeakened r true).removeActive r).insertInactive r

/-- `restore_clause`: move the clause from the inactive to the active
table, then clear the `weakened` flag. -/
def Store.restoreClause (st : Store) (r : Nat) : Store :=
  ((st.removeInactive r).insertActive r).setWeakened r false

/-- `check_unused`: with `no-reuse`, an identifier ever used before is a
line error, and on success the identifier is recorded; without the
option, an identifier present in the active or the inactive table is a
line error. -/
def Store.checkUnused (noReuse : Bool) (st : Store) (id : Int) :
    Except Error Store :=
  if noReuse then
    if id ∈ st.used then .error (.idAlreadyUsed id)
    else .ok { st with used := id :: st.used }
  else
    if (st.findActiveRef id).isSome then .error (.idActivelyInUse id)
    else if (st.findInactiveRef id).isSome then .error (.idInactiveInUse id)
    else .ok st

/-- `find_then_delete_clause`. -/
def Store.findThenDelete (st : Store) (id : Int) : Except Error Store :=
  match st.findActiveRef id with
  | some r => .ok (st.deleteClause r)
  | none => .error (.cannotDelete id)

/-- `find_then_weaken_clause`. -/
def Store.findThenWeaken (st : Store) (id : Int) : Except Error Store :=
  match st.findActiveRef id with
  | some r => .ok (st.weakenClause r)
  | none => .error (.cannotWeaken id)

/-- `find_then_restore_clause`. -/
def Store.findThenRestore (st : Store) (id : Int) : Except Error Store :=
  match st.findInactiveRef id with
  | some r => .ok (st.restoreClause r)
  | none => .error (.cannotRestore id)

/-- `add_input_clause`: check the identifier unused, allocate as input,
insert into the active table. -/
def Store.addInputClause (noReuse : Bool) (st : Store) (id : Int)
    (lits : List Int) : Except Error Store := do
  let st ← st.checkUnused noReuse id
  let a := st.allocateClause true id lits
  .ok (a.1.insertActive a.2)

/-- The input clauses as clause records (what a model check iterates). -/
def Store.inputClauseList (st : Store) : List Clause :=
  st.inputClauses.filterMap st.clauseAt

/-! ## Lemma addition and conclusion checks -/

/-- `check_then_add_lemma`: check the identifier unused, run the RUP
check with `sign = 1`, allocate the lemma and insert it into the active
table.  The assignment state is the global clean state between lines. -/
def Store.checkThenAddLemma (noReuse : Bool) (inconsistent : Bool)
    (st : Store) (id : Int) (lits ids : List Int) : Except Error Store := do
  let st ← st.checkUnused noReuse id
  let _ ← checkImplied inconsistent st.findActive st.findInactive
    lits ids 1 cleanState
  let a := st.allocateClause false id lits
  .ok (a.1.insertActive a.2)

/-- `conclude_query`: concluding outside an open query is a fatal
error; otherwise the query ends and the result code is recorded. -/
def concludeQuery (querying : Bool) (res : Nat) : Except Error (Nat × Bool) :=
  if querying then .ok (res, false) else .error .queryAlreadyConcluded

/-- `conclude_satisfiable_query_with_model` (a proof `m` line after a
`SATISFIABLE` verdict): line consistency, model satisfies the query,
model satisfies every input clause, and with two files consistency with
the saved interaction line; then `conclude_query (10)`. -/
def concludeSatisfiableQueryWithModel (numFiles : Nat) (query : List Int)
    (inputClauses : List Clause) (saved : List Int) (querying : Bool)
    (lits : List Int) (m : Marks) : Except Error (Nat × Bool × Marks) := do
  let m ← checkLineConsistency 'm' lits m
  let m ← checkLineSatisfiesQuery lits query m
  let m ← checkLineSatisfiesInputClauses lits inputClauses m
  let m ← if numFiles > 1 then checkLineConsistentWithSaved 'm' lits saved m
          else .ok m
  let q ← concludeQuery querying 10
  .ok (q.1, q.2, m)

/-- `conclude_unsatisfiable_query_with_core` (a proof `u` line after an
`UNSATISFIABLE` verdict): core subset of the query, with two files set
equality against a saved `u` line or the failed-literal clash check
against a saved `f` line, then the RUP check with `sign = -1`; then
`conclude_query (20)`. -/
def concludeUnsatisfiableQueryWithCore (numFiles : Nat) (query : List Int)
    (saved : List Int) (savedType : Char)
    (inconsistent : Bool) (act inact : Int → Option Clause) (querying : Bool)
    (lits ids : List Int) (m : Marks) : Except Error (Nat × Bool × Marks) := do
  let m ← checkCoreSubsetOfQuery lits query m
  let m ← if numFiles > 1 then
            (if savedType = 'u' then matchSaved 'u' lits saved m
             else checkSavedFailedLiteralsMatchCore lits saved m)
          else .ok m
  let _ ← checkImplied inconsistent act inact lits ids (-1) cleanState
  let q ← concludeQuery querying 20
  .ok (q.1, q.2, m)

/-! ## State-machine steps around conclusions (two-file mode)

Each state of `parse_and_check_icnf_and_idrup` reads one line and acts on
it.  The two states around a satisfiable conclusion and the two around an
unsatisfiable conclusion are embedded; a line is given as its type
character together with its literal and id payloads. -/

/-- Result of an interaction conclusion step: the saved line type, the
saved literals, and the marks array. -/
structure SavedLine where
  savedType : Char
  saved : List Int
  marks : Marks
deriving DecidableEq

/-- State `INTERACTION_SATISFIED`: a `v` line is checked for consistency
and saved; an `m` line is checked for consistency, against the query and
against the input clauses, and saved; anything else is a parse error. -/
def interactionSatisfiedStep (ty : Char) (lits : List Int)
    (query : List Int) (inputClauses : List Clause) (m : Marks) :
    Except Error SavedLine :=
  if ty = 'v' then do
    let m ← checkLineConsistency 'v' lits m
    .ok ⟨'v', lits, m⟩
  else if ty = 'm' then do
    let m ← checkLineConsistency 'm' lits m
    let m ← checkLineSatisfiesQuery lits query m
    let m ← checkLineSatisfiesInputClauses lits inputClauses m
    .ok ⟨'m', lits, m⟩
  else .error .parseError

/-- State `INTERACTION_UNSATISFIED`: an `f` line is checked for
consistency and for its variables being in the query, and saved; a `u`
line is saved; anything else is a parse error. -/
def interactionUnsatisfiedStep (ty : Char) (lits : List Int)
    (query : List Int) (m : Marks) : Except Error SavedLine :=
  if ty = 'f' then do
    let m ← checkLineConsistency 'f' lits m
    let m ← checkLineVariablesSubsetOfQuery lits query m
    .ok ⟨'f', lits, m⟩
  else if ty = 'u' then
    .ok ⟨'u', lits, m⟩
  else .error .parseError

/-- State `PROOF_MODEL`: only an `m` line is accepted, and it concludes
the satisfiable query. -/
def proofModelStep (ty : Char) (lits : List Int) (numFiles : Nat)
    (query : List Int) (inputClauses : List Clause) (saved : List Int)
    (querying : Bool) (m : Marks) : Except Error (Nat × Bool × Marks) :=
  if ty = 'm' then
    concludeSatisfiableQueryWithModel numFiles query inputClauses saved
      querying lits m
  else .error .parseError

/-- State `PROOF_CORE`: only a `u` line is accepted, and it concludes the
unsatisfiable query. -/
def proofCoreStep (ty : Char) (lits ids : List Int) (numFiles : Nat)
    (query : List Int) (saved : List Int) (savedType : Char)
    (inconsistent : Bool) (act inact : Int → Option Clause)
    (querying : Bool) (m : Marks) : Except Error (Nat × Bool × Marks) :=
  if ty = 'u' then
    concludeUnsatisfiableQueryWithCore numFiles query saved savedType
      inconsistent act inact querying lits ids m
  else .error .parseError

/-! ## Characterizations of the line-set utilities

Each marks-based function, started on a clean marks array, computes a
plain set-theoretic condition and hands back a clean marks array. -/

theorem markLiterals_empty (lits : List Int) :
    markLiterals ∅ lits = lits.toFinset := by
  rw [markLiterals_eq_union]; simp

theorem subsetLiterals_fst (a b : List Int) :
    (subsetLiterals a b ∅).1 = true ↔ ∀ l ∈ a, l ∈ b := by
  simp [subsetLiterals, markLiterals_empty, List.all_eq_true]

theorem subsetLiterals_snd (a b : List Int) :
    (subsetLiterals a b ∅).2 = ∅ := by
  simp [subsetLiterals, markLiterals_empty, unmarkLiterals_eq_sdiff]

theorem matchLiterals_fst (a b : List Int) :
    (matchLiterals a b ∅).1 = true ↔
      (∀ l ∈ a, l ∈ b) ∧ (∀ l ∈ b, l ∈ a) := by
  rcases h1 : (subsetLiterals a b ∅).1 with _ | _
  · simp only [matchLiterals, h1, Bool.false_eq_true, if_false]
    constructor
    · intro h; exact h.elim
    · intro h
      exact absurd ((subsetLiterals_fst a b).2 h.1) (by simp [h1])
  · simp only [matchLiterals, h1, if_true, subsetLiterals_snd a b]
    constructor
    · intro h
      exact ⟨(subsetLiterals_fst a b).1 h1, (subsetLiterals_fst b a).1 h⟩
    · intro h
      exact (subsetLiterals_fst b a).2 h.2

theorem matchLiterals_snd (a b : List Int) :
    (matchLiterals a b ∅).2 = ∅ := by
  rcases h1 : (subsetLiterals a b ∅).1 with _ | _
  · simp [matchLiterals, h1, subsetLiterals_snd]
  · simp [matchLiterals, h1, subsetLiterals_snd a b, subsetLiterals_snd b a]

theorem matchSaved_ok_iff (t : Char) (lits saved : List Int) :
    (∃ m', matchSaved t lits saved ∅ = .ok m') ↔
      (∀ l ∈ lits, l ∈ saved) ∧ (∀ l ∈ saved, l ∈ lits) := by
  unfold matchSaved
  rcases h : (matchLiterals lits saved ∅).1 with _ | _
  · simp only [h, Bool.false_eq_true, if_neg]
    constructor
    · rintro ⟨m', hm⟩; cases hm
    · intro hc
      exact absurd ((matchLiterals_fst lits saved).2 hc) (by simp [h])
  · simp only [h, if_pos]
    constructor
    · intro _; exact (matchLiterals_fst lits saved).1 h
    · intro _; exact ⟨_, rfl⟩

theorem matchSaved_ok_eq (t : Char) (lits saved : List Int) (m' : Marks) :
    matchSaved t lits saved ∅ = .ok m' → m' = ∅ := by
  unfold matchSaved
  rcases h : (matchLiterals lits saved ∅).1 with _ | _ <;>
    simp only [h, Bool.false_eq_true, if_neg, if_pos] <;> intro hm
  · cases hm
  · cases hm; exact (matchLiterals_snd lits saved)

theorem consistencyLoop_ok_iff (t : Char) (lits : List Int) (m : Marks) :
    (∃ m', consistencyLoop t lits m = .ok m') ↔
      (∀ x ∈ lits, -x ∉ m) ∧ lits.Pairwise (fun a b => b ≠ -a) := by
  induction lits generalizing m with
  | nil => simp [consistencyLoop]
  | cons l ls ih =>
      unfold consistencyLoop
      by_cases hl : (-l) ∈ m
      · simp only [if_pos hl]
        constructor
        · rintro ⟨m', hm⟩; cases hm
        · rintro ⟨hall, -⟩; exact absurd hl (hall l (List.mem_cons_self l ls))
      · simp only [if_neg hl, ih, List.pairwise_cons, List.mem_cons,
          Finset.mem_insert]
        constructor
        · rintro ⟨hall, hp⟩
          refine ⟨?_, ?_, hp⟩
          · rintro x (rfl | hx)
            · exact hl
            · intro hxm; exact (hall x hx) (Or.inr hxm)
          · intro b hb hbl
            exact (hall b hb) (Or.inl (by rw [hbl]; ring))
        · rintro ⟨hall, hne, hp⟩
          refine ⟨?_, hp⟩
          intro x hx hmem
          rcases hmem with hx1 | hx2
          · exact hne x hx (by linarith)
          · exact (hall x (Or.inr hx)) hx2

theorem consistencyLoop_ok_eq (t : Char) (lits : List Int) (m m' : Marks) :
    consistencyLoop t lits m = .ok m' → m' = markLiterals m lits := by
  induction lits generalizing m with
  | nil =>
      intro h
      cases h
      simp [markLiterals]
  | cons l ls ih =>
      unfold consistencyLoop
      by_cases hl : (-l) ∈ m
      · simp only [if_pos hl]; intro h; cases h
      · simp only [if_neg hl]; intro h
        simpa [markLiterals] using ih (insert l m) h

theorem checkLineConsistency_ok_iff (t : Char) (lits : List Int) :
    (∃ m', checkLineConsistency t lits ∅ = .ok m') ↔
      lits.Pairwise (fun a b => b ≠ -a) := by
  unfold checkLineConsistency
  rcases h : consistencyLoop t lits ∅ with e | m1
  · constructor
    · rintro ⟨m', hm⟩; simp [Except.map] at hm
    · intro hp
      rcases (consistencyLoop_ok_iff t lits ∅).2 ⟨by simp, hp⟩ with ⟨m', hm⟩
      rw [hm] at h; cases h
  · constructor
    · intro _
      exact (((consistencyLoop_ok_iff t lits ∅).1 ⟨m1, h⟩)).2
    · intro _; exact ⟨_, rfl⟩

theorem checkLineConsistency_ok_eq (t : Char) (lits : List Int) (m' : Marks) :
    checkLineConsistency t lits ∅ = .ok m' → m' = ∅ := by
  unfold checkLineConsistency
  rcases h : consistencyLoop t lits ∅ with e | m1
  · intro hm; simp [Except.map] at hm
  · intro hm
    rw [show Except.map (fun m1 => unmarkLiterals m1 lits) (Except.ok m1) =
      (Except.ok (unmarkLiterals m1 lits) : Except Error Marks) from rfl] at hm
    cases hm
    rw [consistencyLoop_ok_eq t lits ∅ m1 h]
    exact unmark_mark_empty lits

theorem checkLineConsistentWithSaved_ok_iff (t : Char) (lits saved : List Int) :
    (∃ m', checkLineConsistentWithSaved t lits saved ∅ = .ok m') ↔
      ∀ l ∈ saved, -l ∉ lits := by
  unfold checkLineConsistentWithSaved
  rcases h : saved.any (fun l => decide ((-l) ∈ markLiterals ∅ lits)) with _ | _
  · simp only [h, Bool.false_eq_true, if_false]
    rw [List.any_eq_false] at h
    constructor
    · intro _ l hl
      have := h l hl
      simpa [markLiterals_empty] using this
    · intro _; exact ⟨_, rfl⟩
  · simp only [h, if_true]
    rw [List.any_eq_true] at h
    constructor
    · rintro ⟨m', hm⟩; cases hm
    · intro hall
      rcases h with ⟨l, hl, hmem⟩
      rw [markLiterals_empty] at hmem
      exact absurd (List.mem_toFinset.1 (of_decide_eq_true hmem))
        (hall l hl)

theorem checkLineConsistentWithSaved_ok_eq (t : Char) (lits saved : List Int)
    (m' : Marks) :
    checkLineConsistentWithSaved t lits saved ∅ = .ok m' → m' = ∅ := by
  unfold checkLineConsistentWithSaved
  rcases h : saved.any (fun l => decide ((-l) ∈ markLiterals ∅ lits)) with _ | _
  · simp only [h, Bool.false_eq_true, if_false, Except.ok.injEq]
    intro hm
    rw [← hm]
    exact unmark_mark_empty lits
  · simp only [h, if_true]
    intro hm; cases hm

theorem checkLineSatisfiesQuery_ok_iff (lits query : List Int) :
    (∃ m', checkLineSatisfiesQuery lits query ∅ = .ok m') ↔
      ∀ q ∈ query, q ∈ lits := by
  unfold checkLineSatisfiesQuery
  rcases h : query.find? (fun l => !(decide (l ∈ markLiterals ∅ lits)))
    with _ | l
  · rw [List.find?_eq_none] at h
    constructor
    · intro _ q hq
      have := h q hq
      simpa [markLiterals_empty] using this
    · intro _; exact ⟨_, rfl⟩
  · constructor
    · rintro ⟨m', hm⟩; cases hm
    · intro hall
      have hp := List.find?_some h
      have hmem := List.mem_of_find?_eq_some h
      rw [markLiterals_empty] at hp
      simp only [Bool.not_eq_eq_eq_not, Bool.not_true, decide_eq_false_iff_not,
        List.mem_toFinset] at hp
      exact absurd (hall l hmem) hp

theorem checkLineSatisfiesQuery_ok_eq (lits query : List Int) (m' : Marks) :
    checkLineSatisfiesQuery lits query ∅ = .ok m' → m' = ∅ := by
  unfold checkLineSatisfiesQuery
  rcases h : query.find? (fun l => !(decide (l ∈ markLiterals ∅ lits)))
    with _ | l
  · intro hm; cases hm; exact unmark_mark_empty lits
  · intro hm; cases hm

/-- Meaning of `check_satisfied_clause` for one clause under the marks of
the model line: skipped if tautological, else some literal marked. -/
def SatisfiedBy (lits : List Int) (c : Clause) : Prop :=
  c.tautological = false → ∃ l ∈ c.lits, l ∈ lits

theorem checkLineSatisfiesInputClauses_ok_iff (lits : List Int)
    (cs : List Clause) :
    (∃ m', checkLineSatisfiesInputClauses lits cs ∅ = .ok m') ↔
      ∀ c ∈ cs, SatisfiedBy lits c := by
  constructor
  · rintro ⟨m', hm⟩
    unfold checkLineSatisfiesInputClauses at hm
    split at hm
    · cases hm
    · rename_i h
      rw [List.find?_eq_none] at h
      intro c hc
      have := h c hc
      simp only [markLiterals_empty, Bool.and_eq_true, Bool.not_eq_eq_eq_not,
        Bool.not_true, not_and, Bool.not_eq_false, List.any_eq_true,
        decide_eq_true_eq, List.mem_toFinset] at this
      intro htaut
      exact this (by simp [htaut])
  · intro hall
    unfold checkLineSatisfiesInputClauses
    split
    · rename_i c h
      have hp := List.find?_some h
      have hmem := List.mem_of_find?_eq_some h
      simp only [markLiterals_empty, Bool.and_eq_true, Bool.not_eq_eq_eq_not,
        Bool.not_true, Bool.not_eq_true', List.any_eq_false,
        decide_eq_false_iff_not, List.mem_toFinset] at hp
      rcases (hall c hmem) hp.1 with ⟨l, hl, hml⟩
      exact ((hp.2 l hl) (by simpa using hml)).elim
    · exact ⟨_, rfl⟩

theorem checkLineSatisfiesInputClauses_ok_eq (lits : List Int)
    (cs : List Clause) (m' : Marks) :
    checkLineSatisfiesInputClauses lits cs ∅ = .ok m' → m' = ∅ := by
  intro hm
  unfold checkLineSatisfiesInputClauses at hm
  split at hm
  · cases hm
  · cases hm; exact unmark_mark_empty lits

theorem checkCoreSubsetOfQuery_ok_iff (lits query : List Int) :
    (∃ m', checkCoreSubsetOfQuery lits query ∅ = .ok m') ↔
      ∀ l ∈ lits, l ∈ query := by
  unfold checkCoreSubsetOfQuery
  rcases h : lits.find? (fun l => !(decide (l ∈ markLiterals ∅ query)))
    with _ | l
  · rw [List.find?_eq_none] at h
    constructor
    · intro _ l hl
      have := h l hl
      simpa [markLiterals_empty] using this
    · intro _; exact ⟨_, rfl⟩
  · constructor
    · rintro ⟨m', hm⟩; cases hm
    · intro hall
      have hp := List.find?_some h
      have hmem := List.mem_of_find?_eq_some h
      rw [markLiterals_empty] at hp
      simp only [Bool.not_eq_eq_eq_not, Bool.not_true, decide_eq_false_iff_not,
        List.mem_toFinset] at hp
      exact absurd (hall l hmem) hp

theorem checkCoreSubsetOfQuery_ok_eq (lits query : List Int) (m' : Marks) :
    checkCoreSubsetOfQuery lits query ∅ = .ok m' → m' = ∅ := by
  unfold checkCoreSubsetOfQuery
  rcases h : lits.find? (fun l => !(decide (l ∈ markLiterals ∅ query)))
    with _ | l
  · intro hm; cases hm; exact unmark_mark_empty query
  · intro hm; cases hm

theorem checkLineVariablesSubsetOfQuery_ok_iff (lits query : List Int) :
    (∃ m', checkLineVariablesSubsetOfQuery lits query ∅ = .ok m') ↔
      ∀ l ∈ lits, l ∈ query ∨ -l ∈ query := by
  constructor
  · rintro ⟨m', hm⟩
    unfold checkLineVariablesSubsetOfQuery at hm
    split at hm
    · cases hm
    · rename_i h
      rw [List.find?_eq_none] at h
      intro l hl
      have := h l hl
      simp only [markLiterals_empty, Bool.and_eq_true, Bool.not_eq_eq_eq_not,
        Bool.not_true, not_and, Bool.not_eq_false, decide_eq_true_eq,
        decide_eq_false_iff_not, List.mem_toFinset, not_not] at this
      by_cases hq : l ∈ query
      · exact Or.inl hq
      · exact Or.inr (this (by simpa using hq))
  · intro hall
    unfold checkLineVariablesSubsetOfQuery
    split
    · rename_i l h
      have hp := List.find?_some h
      have hmem := List.mem_of_find?_eq_some h
      simp only [markLiterals_empty, Bool.and_eq_true, Bool.not_eq_eq_eq_not,
        Bool.not_true, decide_eq_false_iff_not, List.mem_toFinset] at hp
      rcases hall l hmem with hq | hq
      · exact absurd hq hp.1
      · exact absurd hq hp.2
    · exact ⟨_, rfl⟩

theorem checkLineVariablesSubsetOfQuery_ok_eq (lits query : List Int)
    (m' : Marks) :
    checkLineVariablesSubsetOfQuery lits query ∅ = .ok m' → m' = ∅ := by
  intro hm
  unfold checkLineVariablesSubsetOfQuery at hm
  split at hm
  · cases hm
  · cases hm; exact unmark_mark_empty query

theorem checkSavedFailedLiteralsMatchCore_ok_iff (lits saved : List Int) :
    (∃ m', checkSavedFailedLiteralsMatchCore lits saved ∅ = .ok m') ↔
      ∀ l ∈ saved, -l ∉ lits := by
  unfold checkSavedFailedLiteralsMatchCore
  rcases h : saved.find? (fun l => decide ((-l) ∈ markLiterals ∅ lits))
    with _ | l
  · rw [List.find?_eq_none] at h
    constructor
    · intro _ l hl
      have := h l hl
      simpa [markLiterals_empty] using this
    · intro _; exact ⟨_, rfl⟩
  · constructor
    · rintro ⟨m', hm⟩; cases hm
    · intro hall
      have hp := List.find?_some h
      have hmem := List.mem_of_find?_eq_some h
      rw [markLiterals_empty] at hp
      simp only [decide_eq_true_eq, List.mem_toFinset] at hp
      exact absurd hp (hall l hmem)

theorem checkSavedFailedLiteralsMatchCore_ok_eq (lits saved : List Int)
    (m' : Marks) :
    checkSavedFailedLiteralsMatchCore lits saved ∅ = .ok m' → m' = ∅ := by
  unfold checkSavedFailedLiteralsMatchCore
  rcases h : saved.find? (fun l => decide ((-l) ∈ markLiterals ∅ lits))
    with _ | l
  · intro hm
    cases hm
    rw [unmark_mark_empty lits, unmarkLiterals_eq_sdiff]
    simp
  · intro hm; cases hm

/-! ## Characterization of `line_is_tautological` -/

theorem tautLoop_snd (lits : List Int) (m : Marks) (r : Bool) :
    (tautLoop lits m r).2 = m ∪ lits.toFinset := by
  induction lits generalizing m r with
  | nil => simp [tautLoop]
  | cons l ls ih =>
      unfold tautLoop
      by_cases hl : l ∈ m
      · rw [if_pos hl, ih]
        rw [List.toFinset_cons, Finset.union_insert, Finset.insert_eq_self.2]
        exact Finset.mem_union_left _ hl
      · rw [if_neg hl, ih]
        rw [List.toFinset_cons, Finset.insert_union, Finset.union_insert]

theorem tautLoop_fst_of_true (lits : List Int) (m : Marks) :
    (tautLoop lits m true).1 = true := by
  induction lits generalizing m with
  | nil => rfl
  | cons l ls ih =>
      unfold tautLoop
      by_cases hl : l ∈ m
      · rw [if_pos hl]; exact ih m
      · rw [if_neg hl]
        simpa using ih (insert l m)

theorem tautLoop_fst_of_neg_marked (lits : List Int) (m : Marks) (r : Bool)
    (x : Int) (hx : x ∈ lits) (hnm : -x ∈ m) (hxm : x ∉ m) :
    (tautLoop lits m r).1 = true := by
  induction lits generalizing m r with
  | nil => cases hx
  | cons l ls ih =>
      unfold tautLoop
      by_cases hl : l ∈ m
      · rw [if_pos hl]
        rcases List.mem_cons.1 hx with rfl | hx2
        · exact absurd hl hxm
        · exact ih m r hx2 hnm hxm
      · rw [if_neg hl]
        by_cases hlx : l = x
        · subst hlx
          rw [decide_eq_true hnm, Bool.or_true]
          exact tautLoop_fst_of_true ls (insert l m)
        · have hx2 : x ∈ ls := by
            rcases List.mem_cons.1 hx with rfl | hx2
            · exact absurd rfl hlx
            · exact hx2
          refine ih (insert l m) _ hx2 (Finset.mem_insert_of_mem hnm) ?_
          intro hc
          rcases Finset.mem_insert.1 hc with h1 | h1
          · exact hlx h1.symm
          · exact hxm h1

theorem tautLoop_fst_of_both (lits : List Int) (m : Marks) (r : Bool)
    (x : Int) (hx0 : x ≠ 0) (hx : x ∈ lits) (hnx : -x ∈ lits)
    (hxm : x ∉ m) (hnxm : -x ∉ m) :
    (tautLoop lits m r).1 = true := by
  induction lits generalizing m r with
  | nil => cases hx
  | cons l ls ih =>
      have hxne : x ≠ -x := by intro h; apply hx0; omega
      unfold tautLoop
      by_cases hl : l ∈ m
      · rw [if_pos hl]
        have hlnx : l ≠ x := by rintro rfl; exact hxm hl
        have hlnnx : l ≠ -x := by rintro rfl; exact hnxm hl
        have hx2 : x ∈ ls := by
          rcases List.mem_cons.1 hx with rfl | h2
          · exact absurd rfl hlnx
          · exact h2
        have hnx2 : -x ∈ ls := by
          rcases List.mem_cons.1 hnx with h1 | h2
          · exact absurd h1.symm hlnnx
          · exact h2
        exact ih m r hx2 hnx2 hxm hnxm
      · rw [if_neg hl]
        by_cases hlx : l = x
        · subst hlx
          have hnxls : -l ∈ ls := by
            rcases List.mem_cons.1 hnx with h1 | h2
            · exact absurd h1.symm hxne
            · exact h2
          refine tautLoop_fst_of_neg_marked ls (insert l m) _ (-l) hnxls
            (by simp) ?_
          intro hc
          rcases Finset.mem_insert.1 hc with h1 | h1
          · exact hxne h1.symm
          · exact hnxm h1
        · by_cases hlnx : l = -x
          · subst hlnx
            have hxls : x ∈ ls := by
              rcases List.mem_cons.1 hx with h1 | h2
              · exact absurd h1 hxne
              · exact h2
            refine tautLoop_fst_of_neg_marked ls (insert (-x) m) _ x hxls
              (Finset.mem_insert_self (-x) m) ?_
            intro hc
            rcases Finset.mem_insert.1 hc with h1 | h1
            · exact hxne h1
            · exact hxm h1
          · have hx2 : x ∈ ls := by
              rcases List.mem_cons.1 hx with rfl | h2
              · exact absurd rfl hlx
              · exact h2
            have hnx2 : -x ∈ ls := by
              rcases List.mem_cons.1 hnx with h1 | h2
              · exact absurd h1.symm hlnx
              · exact h2
            refine ih (insert l m) _ hx2 hnx2 ?_ ?_
            · intro hc
              rcases Finset.mem_insert.1 hc with h1 | h1
              · exact hlx h1.symm
              · exact hxm h1
            · intro hc
              rcases Finset.mem_insert.1 hc with h1 | h1
              · exact hlnx h1.symm
              · exact hnxm h1

theorem tautLoop_fst_imp (lits : List Int) (m : Marks) (r : Bool) :
    (tautLoop lits m r).1 = true →
      r = true ∨ ∃ x, x ≠ 0 ∧ x ∈ lits ∧ -x ∈ m ∪ lits.toFinset := by
  induction lits generalizing m r with
  | nil => intro h; exact Or.inl h
  | cons l ls ih =>
      unfold tautLoop
      by_cases hl : l ∈ m
      · rw [if_pos hl]
        intro h
        rcases ih m r h with h1 | ⟨x, hx0, hx, hmem⟩
        · exact Or.inl h1
        · refine Or.inr ⟨x, hx0, List.mem_cons_of_mem l hx, ?_⟩
          rcases Finset.mem_union.1 hmem with h2 | h2
          · exact Finset.mem_union_left _ h2
          · exact Finset.mem_union_right _ (by simp [List.mem_toFinset.1 h2])
      · rw [if_neg hl]
        intro h
        rcases ih (insert l m) (r || decide ((-l) ∈ m)) h with h1 | ⟨x, hx0, hx, hmem⟩
        · rcases Bool.or_eq_true_iff.1 h1 with h2 | h2
          · exact Or.inl h2
          · refine Or.inr ⟨l, ?_, List.mem_cons_self l ls, ?_⟩
            · intro h0
              subst h0
              exact hl (of_decide_eq_true h2)
            · exact Finset.mem_union_left _ (of_decide_eq_true h2)
        · refine Or.inr ⟨x, hx0, List.mem_cons_of_mem l hx, ?_⟩
          rcases Finset.mem_union.1 hmem with h2 | h2
          · rcases Finset.mem_insert.1 h2 with h3 | h3
            · exact Finset.mem_union_right _ (by simp [h3])
            · exact Finset.mem_union_left _ h3
          · exact Finset.mem_union_right _ (by simp [List.mem_toFinset.1 h2])

/-- `line_is_tautological` on clean marks decides exactly whether some
variable occurs in the line with both polarities. -/
theorem lineIsTautological_iff (lits : List Int) :
    (lineIsTautological lits ∅).1 = true ↔
      ∃ x, x ≠ 0 ∧ x ∈ lits ∧ -x ∈ lits := by
  unfold lineIsTautological
  constructor
  · intro h
    rcases tautLoop_fst_imp lits ∅ false h with h1 | ⟨x, hx0, hx, hmem⟩
    · cases h1
    · refine ⟨x, hx0, hx, ?_⟩
      rcases Finset.mem_union.1 hmem with h2 | h2
      · cases Finset.not_mem_empty _ h2
      · exact List.mem_toFinset.1 h2
  · rintro ⟨x, hx0, hx, hnx⟩
    exact tautLoop_fst_of_both lits ∅ false x hx0 hx hnx
      (Finset.not_mem_empty x) (Finset.not_mem_empty (-x))

theorem lineIsTautological_snd (lits : List Int) :
    (lineIsTautological lits ∅).2 = ∅ := by
  show unmarkLiterals (tautLoop lits ∅ false).2 lits = ∅
  rw [tautLoop_snd, unmarkLiterals_eq_sdiff]
  simp

/-! ## Trail invariant and backtracking -/

/-- The running invariant of the assignment state: the set of true
literals is exactly the set of literals on the trail (the C code only
assigns through `assign`, which pushes on the trail). -/
def InvPS (s : PropState) : Prop := s.pos = s.trail.toFinset

theorem invPS_clean : InvPS cleanState := by
  simp [InvPS, cleanState]

theorem invPS_assign (s : PropState) (l : Int) (h : InvPS s) :
    InvPS (assign s l) := by
  unfold InvPS assign at *
  simp only [List.toFinset_append, List.toFinset_cons, List.toFinset_nil]
  rw [h]
  ext y
  simp [or_comm]

theorem backtrack_of_invPS (s : PropState) (h : InvPS s) :
    backtrack s = cleanState := by
  unfold backtrack cleanState
  have : s.trail.foldl (fun p l => p.erase l) s.pos =
      unmarkLiterals s.pos s.trail := rfl
  rw [this, unmarkLiterals_eq_sdiff, h]
  simp

/-! Values of literals under the set of true literals. -/

theorem valueOf_of_mem (pos : Finset Int) (l : Int) (h : l ∈ pos) :
    valueOf pos l = 1 := if_pos h

theorem valueOf_insert_ne (pos : Finset Int) (u l : Int)
    (h1 : l ≠ u) (h2 : l ≠ -u) : valueOf (insert u pos) l = valueOf pos l := by
  unfold valueOf
  by_cases hm : l ∈ pos
  · rw [if_pos hm, if_pos (Finset.mem_insert_of_mem hm)]
  · have hm' : l ∉ insert u pos := by
      intro hc
      rcases Finset.mem_insert.1 hc with h | h
      · exact h1 h
      · exact hm h
    rw [if_neg hm, if_neg hm']
    by_cases hn : (-l) ∈ pos
    · rw [if_pos hn, if_pos (Finset.mem_insert_of_mem hn)]
    · have hn' : (-l) ∉ insert u pos := by
        intro hc
        rcases Finset.mem_insert.1 hc with h | h
        · exact h2 (by omega)
        · exact hn h
      rw [if_neg hn, if_neg hn']

/-! Preservation of the trail invariant by the propagator phases. -/

theorem assumeLits_invPS (sign : Int) (lits : List Int) (s : PropState)
    (h : InvPS s) : InvPS (assumeLits sign lits s).2 := by
  induction lits generalizing s with
  | nil => exact h
  | cons l ls ih =>
      unfold assumeLits
      by_cases h1 : valueOf s.pos (sign * l) < 0
      · rw [if_pos h1]; exact ih s h
      · rw [if_neg h1]
        by_cases h2 : valueOf s.pos (sign * l) > 0
        · rw [if_pos h2]; exact h
        · rw [if_neg h2]
          exact ih _ (invPS_assign s _ h)

theorem resolveLoop_invPS (lits : List Int) (u : Int) (s : PropState)
    (r : Int × PropState) (h : InvPS s) (hok : resolveLoop lits u s = .ok r) :
    InvPS r.2 := by
  induction lits generalizing u s with
  | nil =>
      cases hok
      exact h
  | cons l ls ih =>
      unfold resolveLoop at hok
      by_cases h1 : valueOf s.pos l < 0
      · rw [if_pos h1] at hok; exact ih u s h hok
      · rw [if_neg h1] at hok
        by_cases h2 : u ≠ 0 ∧ u ≠ l
        · rw [if_pos h2] at hok; cases hok
        · rw [if_neg h2] at hok
          by_cases h3 : valueOf s.pos l = 0
          · rw [if_pos h3] at hok
            exact ih l _ (invPS_assign s l h) hok
          · rw [if_neg h3] at hok
            exact ih l s h hok

theorem checkAntecedents_invPS (act inact : Int → Option Clause)
    (ids : List Int) (s : PropState) (s2 : PropState) (h : InvPS s)
    (hok : checkAntecedents act inact ids s = .ok s2) : InvPS s2 := by
  induction ids generalizing s with
  | nil => cases hok
  | cons id rest ih =>
      unfold checkAntecedents at hok
      split at hok
      · cases hok
      · split at hok
        · split at hok <;> cases hok
        · rename_i c hact
          split at hok
          · cases hok
          · rename_i r hres
            have hinv2 := resolveLoop_invPS c.lits 0 s r h hres
            split at hok
            · cases hok; exact hinv2
            · exact ih r.2 hinv2 hok

theorem valueOf_lt_zero_iff (pos : Finset Int) (l : Int) :
    valueOf pos l < 0 ↔ (l ∉ pos ∧ -l ∈ pos) := by
  unfold valueOf
  by_cases h1 : l ∈ pos
  · simp [h1]
  · by_cases h2 : (-l) ∈ pos <;> simp [h1, h2]

theorem valueOf_eq_zero_iff (pos : Finset Int) (l : Int) :
    valueOf pos l = 0 ↔ (l ∉ pos ∧ -l ∉ pos) := by
  unfold valueOf
  by_cases h1 : l ∈ pos
  · simp [h1]
  · by_cases h2 : (-l) ∈ pos <;> simp [h1, h2]

theorem mem_of_valueOf_nonneg_ne_zero (pos : Finset Int) (l : Int)
    (h1 : ¬ valueOf pos l < 0) (h2 : ¬ valueOf pos l = 0) : l ∈ pos := by
  by_contra hc
  rcases (valueOf_eq_zero_iff pos l).not.1 h2 with h3
  rcases not_and_or.1 h3 with h4 | h4
  · exact h4 hc
  · exact h1 ((valueOf_lt_zero_iff pos l).2 ⟨hc, not_not.1 h4⟩)

/-! ## The tautological early exit of `check_implied` -/

theorem assumeLits_taut_of_mem (sign : Int) (lits : List Int) (s : PropState)
    (x : Int) (hx : x ∈ lits) (hmem : sign * x ∈ s.pos) :
    (assumeLits sign lits s).1 = true := by
  induction lits generalizing s with
  | nil => cases hx
  | cons l ls ih =>
      unfold assumeLits
      by_cases h1 : valueOf s.pos (sign * l) < 0
      · rw [if_pos h1]
        rcases List.mem_cons.1 hx with h3 | hx2
        · rw [← h3, valueOf_of_mem s.pos (sign * x) hmem] at h1; omega
        · exact ih s hx2 hmem
      · rw [if_neg h1]
        by_cases h2 : valueOf s.pos (sign * l) > 0
        · rw [if_pos h2]
        · rw [if_neg h2]
          rcases List.mem_cons.1 hx with h3 | hx2
          · rw [← h3, valueOf_of_mem s.pos (sign * x) hmem] at h2; omega
          · exact ih _ hx2 (Finset.mem_insert_of_mem hmem)

theorem assumeLits_taut_of_both (sign : Int) (lits : List Int) (s : PropState)
    (x : Int) (hsx : sign * x ≠ 0) (hx : x ∈ lits) (hnx : -x ∈ lits) :
    (assumeLits sign lits s).1 = true := by
  induction lits generalizing s with
  | nil => cases hx
  | cons l ls ih =>
      have hxnnx : x ≠ -x := by
        intro h
        apply hsx
        have : x = 0 := by omega
        rw [this, mul_zero]
      unfold assumeLits
      by_cases h1 : valueOf s.pos (sign * l) < 0
      · rw [if_pos h1]
        rcases (valueOf_lt_zero_iff s.pos (sign * l)).1 h1 with ⟨-, hneg⟩
        by_cases hlx : l = x
        · have hnx2 : -x ∈ ls := by
            rcases List.mem_cons.1 hnx with h2 | h2
            · exact absurd (hlx ▸ h2.symm) hxnnx
            · exact h2
          refine assumeLits_taut_of_mem sign ls s (-x) hnx2 ?_
          rw [mul_neg, ← hlx]
          exact hneg
        · by_cases hlnx : l = -x
          · have hx2 : x ∈ ls := by
              rcases List.mem_cons.1 hx with h2 | h2
              · exact absurd (by omega : x = -x) hxnnx
              · exact h2
            refine assumeLits_taut_of_mem sign ls s x hx2 ?_
            rw [hlnx, mul_neg, neg_neg] at hneg
            exact hneg
          · have hx2 : x ∈ ls := by
              rcases List.mem_cons.1 hx with h2 | h2
              · exact absurd h2 (fun h => hlx h.symm)
              · exact h2
            have hnx2 : -x ∈ ls := by
              rcases List.mem_cons.1 hnx with h2 | h2
              · exact absurd h2 (fun h => hlnx h.symm)
              · exact h2
            exact ih s hx2 hnx2
      · rw [if_neg h1]
        by_cases h2 : valueOf s.pos (sign * l) > 0
        · rw [if_pos h2]
        · rw [if_neg h2]
          by_cases hlx : l = x
          · have hnx2 : -x ∈ ls := by
              rcases List.mem_cons.1 hnx with h3 | h3
              · exact absurd (hlx ▸ h3.symm) hxnnx
              · exact h3
            refine assumeLits_taut_of_mem sign ls _ (-x) hnx2 ?_
            rw [mul_neg, ← hlx]
            show -(sign * l) ∈ insert (-(sign * l)) s.pos
            exact Finset.mem_insert_self _ _
          · by_cases hlnx : l = -x
            · have hx2 : x ∈ ls := by
                rcases List.mem_cons.1 hx with h3 | h3
                · exact absurd (by omega : x = -x) hxnnx
                · exact h3
              refine assumeLits_taut_of_mem sign ls _ x hx2 ?_
              have he : sign * x = -(sign * l) := by rw [hlnx]; ring
              rw [he]
              show -(sign * l) ∈ insert (-(sign * l)) s.pos
              exact Finset.mem_insert_self _ _
            · have hx2 : x ∈ ls := by
                rcases List.mem_cons.1 hx with h3 | h3
                · exact absurd h3 (fun h => hlx h.symm)
                · exact h3
              have hnx2 : -x ∈ ls := by
                rcases List.mem_cons.1 hnx with h3 | h3
                · exact absurd h3 (fun h => hlnx h.symm)
                · exact h3
              exact ih _ hx2 hnx2

/-- Basis for claim C5: from the clean state, any returning run of
`check_implied` returns with the clean state: trail truncated to empty
and every assignment undone. -/
theorem checkImplied_ok_clean (inconsistent : Bool)
    (act inact : Int → Option Clause) (lits ids : List Int) (sign : Int)
    (s' : PropState)
    (hok : checkImplied inconsistent act inact lits ids sign cleanState
      = .ok s') :
    s'.pos = ∅ ∧ s'.trail = [] := by
  unfold checkImplied at hok
  split at hok
  · cases hok
    exact ⟨rfl, rfl⟩
  · have hinv : InvPS (assumeLits sign lits cleanState).2 :=
      assumeLits_invPS sign lits cleanState invPS_clean
    split at hok
    · cases hok
      rw [backtrack_of_invPS _ hinv]
      exact ⟨rfl, rfl⟩
    · rcases hres : checkAntecedents act inact ids
          (assumeLits sign lits cleanState).2 with e | s2
      · rw [hres] at hok; cases hok
      · rw [hres] at hok
        have hinv2 := checkAntecedents_invPS act inact ids _ s2 hinv hres
        cases hok
        rw [backtrack_of_invPS _ hinv2]
        exact ⟨rfl, rfl⟩

/-! ## Behaviour of the antecedent phase -/

/-- An antecedent whose literals are all falsified is the conflict: the
loop skips every literal and ends with `unit = 0`. -/
theorem resolveLoop_all_falsified (lits : List Int) (u : Int) (s : PropState)
    (h : ∀ l ∈ lits, valueOf s.pos l < 0) :
    resolveLoop lits u s = .ok (u, s) := by
  induction lits with
  | nil => rfl
  | cons l ls ih =>
      unfold resolveLoop
      rw [if_pos (h l (List.mem_cons_self l ls))]
      exact ih (fun k hk => h k (List.mem_cons_of_mem l hk))

/-- Once a nonzero unit is recorded (and true), any further non-falsified
literal different from the unit makes the loop fail. -/
theorem resolveLoop_error_of_second (lits : List Int) (u : Int)
    (s : PropState) (hu0 : u ≠ 0) (hupos : u ∈ s.pos)
    (k : Int) (hk : k ∈ lits) (hkv : ¬ valueOf s.pos k < 0) (hku : k ≠ u) :
    resolveLoop lits u s = .error () := by
  induction lits generalizing u with
  | nil => cases hk
  | cons l ls ih =>
      unfold resolveLoop
      by_cases h1 : valueOf s.pos l < 0
      · rw [if_pos h1]
        have hkls : k ∈ ls := by
          rcases List.mem_cons.1 hk with h2 | h2
          · rw [h2] at hkv; exact absurd h1 hkv
          · exact h2
        exact ih u hu0 hupos hkls hku
      · rw [if_neg h1]
        by_cases h2 : l = u
        · rw [if_neg (by simp [h2] : ¬(u ≠ 0 ∧ u ≠ l))]
          have hv : valueOf s.pos l = 1 := by
            rw [h2]; exact valueOf_of_mem s.pos u hupos
          rw [if_neg (by omega : ¬ valueOf s.pos l = 0)]
          have hkls : k ∈ ls := by
            rcases List.mem_cons.1 hk with h3 | h3
            · rw [h3, h2] at hku; exact absurd rfl hku
            · exact h3
          rw [h2]
          exact ih u hu0 hupos hkls hku
        · rw [if_pos ⟨hu0, fun h => h2 h.symm⟩]

/-- Seeing a first non-falsified literal `u` and later a second
non-falsified literal distinct from both `u` and `-u` makes the loop with
`unit = 0` fail (`antecedent ... not resolvable`). -/
theorem resolveLoop_error_of_two (p : List Int) (u : Int) (q : List Int)
    (s : PropState) (hp : ∀ k ∈ p, valueOf s.pos k < 0)
    (hu : ¬ valueOf s.pos u < 0) (hu0 : u ≠ 0)
    (k : Int) (hk : k ∈ q) (hkv : ¬ valueOf s.pos k < 0)
    (hku : k ≠ u) (hknu : k ≠ -u) :
    resolveLoop (p ++ u :: q) 0 s = .error () := by
  induction p with
  | nil =>
      simp only [List.nil_append]
      unfold resolveLoop
      rw [if_neg hu, if_neg (by simp : ¬((0 : Int) ≠ 0 ∧ (0 : Int) ≠ u))]
      by_cases h0 : valueOf s.pos u = 0
      · rw [if_pos h0]
        refine resolveLoop_error_of_second q u (assign s u) hu0 ?_ k hk ?_ hku
        · exact Finset.mem_insert_self u s.pos
        · show ¬ valueOf (insert u s.pos) k < 0
          rw [valueOf_insert_ne s.pos u k hku hknu]
          exact hkv
      · rw [if_neg h0]
        refine resolveLoop_error_of_second q u s hu0 ?_ k hk hkv hku
        exact mem_of_valueOf_nonneg_ne_zero s.pos u hu h0
  | cons l p ih =>
      simp only [List.cons_append]
      unfold resolveLoop
      rw [if_pos (hp l (List.mem_cons_self l p))]
      exact ih (fun j hj => hp j (List.mem_cons_of_mem l hj))

/-- The antecedent ids consulted by a run are a prefix of the id list of
the line: they are visited in listed order, each at most once, up to the
first conflict or error. -/
theorem anteTrace_isPrefix (act inact : Int → Option Clause)
    (ids : List Int) (s : PropState) :
    anteTrace act inact ids s <+: ids := by
  induction ids generalizing s with
  | nil => exact List.nil_prefix
  | cons id rest ih =>
      unfold anteTrace
      split
      · exact ⟨rest, rfl⟩
      · split
        · exact ⟨rest, rfl⟩
        · split
          · exact ⟨rest, rfl⟩
          · split
            · exact ⟨rest, rfl⟩
            · rename_i r _ _
              exact (List.prefix_cons_inj id).2 (ih r.2)

/-- A successful antecedent phase stops at a conflict antecedent: some
listed id is reached, and the trace is exactly the ids up to it. -/
theorem checkAntecedents_ok_conflict (act inact : Int → Option Clause)
    (ids : List Int) (s s2 : PropState)
    (hok : checkAntecedents act inact ids s = .ok s2) :
    ∃ p id r, ids = p ++ id :: r ∧ anteTrace act inact ids s = p ++ [id] := by
  induction ids generalizing s with
  | nil => cases hok
  | cons id rest ih =>
      unfold checkAntecedents at hok
      unfold anteTrace
      split at hok
      · cases hok
      · rename_i hneg
        rw [if_neg hneg]
        split at hok
        · split at hok <;> cases hok
        · rename_i c hact
          split at hok
          · cases hok
          · rename_i r hres
            by_cases hr : r.1 = 0
            · refine ⟨[], id, rest, rfl, ?_⟩
              rw [if_pos hr]
              rfl
            · rw [if_neg hr] at hok
              rcases ih r.2 hok with ⟨p, id2, r2, hsplit, htrace⟩
              refine ⟨id :: p, id2, r2, by rw [hsplit]; rfl, ?_⟩
              rw [if_neg hr, htrace]
              rfl

theorem checkAntecedents_notFound (act inact : Int → Option Clause)
    (id : Int) (rest : List Int) (s : PropState) (hid : ¬ id < 0)
    (hact : act id = none) (hinact : inact id = none) :
    checkAntecedents act inact (id :: rest) s
      = .error (.antecedentNotFound id) := by
  unfold checkAntecedents
  rw [if_neg hid]
  simp [hact, hinact]

theorem checkAntecedents_weakened (act inact : Int → Option Clause)
    (id : Int) (rest : List Int) (s : PropState) (c : Clause) (hid : ¬ id < 0)
    (hact : act id = none) (hinact : inact id = some c) :
    checkAntecedents act inact (id :: rest) s
      = .error (.antecedentWeakened id) := by
  unfold checkAntecedents
  rw [if_neg hid]
  simp [hact, hinact]

theorem checkAntecedents_conflict (act inact : Int → Option Clause)
    (id : Int) (rest : List Int) (s : PropState) (c : Clause) (hid : ¬ id < 0)
    (hact : act id = some c) (hfals : ∀ l ∈ c.lits, valueOf s.pos l < 0) :
    checkAntecedents act inact (id :: rest) s = .ok s := by
  unfold checkAntecedents
  rw [if_neg hid]
  simp [hact, resolveLoop_all_falsified c.lits 0 s hfals]

theorem checkAntecedents_notResolvable (act inact : Int → Option Clause)
    (id : Int) (rest : List Int) (s : PropState) (c : Clause) (hid : ¬ id < 0)
    (hact : act id = some c) (herr : resolveLoop c.lits 0 s = .error ()) :
    checkAntecedents act inact (id :: rest) s
      = .error (.antecedentNotResolvable id) := by
  unfold checkAntecedents
  rw [if_neg hid]
  simp [hact, herr]

/-- The ids consulted by the whole of `check_implied`: none when the
formula is already inconsistent or the line is tautological, else the
ids consulted by the antecedent phase. -/
def checkImpliedTrace (inconsistent : Bool) (act inact : Int → Option Clause)
    (lits ids : List Int) (sign : Int) (s : PropState) : List Int :=
  if inconsistent then []
  else if (assumeLits sign lits s).1 then []
  else anteTrace act inact ids (assumeLits sign lits s).2

/-! ## Concrete material for witnesses -/

/-- A clause with literal `5` (for concrete runs). -/
def witClauseA : Clause := ⟨1, false, false, false, [5]⟩

/-- A clause with literals `1 2` (for concrete runs). -/
def witClauseB : Clause := ⟨3, false, false, false, [1, 2]⟩

/-- A concrete active map: id `1` is `witClauseA`, id `3` is `witClauseB`. -/
def witActive : Int → Option Clause :=
  fun id => if id = 1 then some witClauseA
            else if id = 3 then some witClauseB else none

/-- A concrete inactive map: id `2` is `witClauseA`. -/
def witInactive : Int → Option Clause :=
  fun id => if id = 2 then some witClauseA else none

/-- A concrete assignment state with `-5` assigned true. -/
def witState : PropState := ⟨insert (-5) ∅, [-5]⟩

/-! ## Claims C3, C4, C5 -/

/-- C3: in the antecedent phase of `check_implied`, the antecedents are
visited exactly once in listed order (the consulted ids are a prefix of
the id list); an id absent from both tables is `could not find
antecedent`; an id only in the inactive table is `antecedent weakened`;
an antecedent that, scanned in order past falsified literals, shows a
first non-falsified literal `u` and later a non-falsified literal other
than `u` (and other than `-u`, which assigning the unit falsifies) is
`antecedent not resolvable`; an antecedent with all literals falsified
makes the check succeed; an exhausted antecedent list is `resolution
check failed`, and success only ever arises from such a conflict
antecedent. -/
theorem c3_antecedent_phase (act inact : Int → Option Clause)
    (s : PropState) :
    (∀ ids, anteTrace act inact ids s <+: ids)
    ∧ (∀ id rest, ¬ id < 0 → act id = none → inact id = none →
        checkAntecedents act inact (id :: rest) s
          = .error (.antecedentNotFound id))
    ∧ (∀ id rest c, ¬ id < 0 → act id = none → inact id = some c →
        checkAntecedents act inact (id :: rest) s
          = .error (.antecedentWeakened id))
    ∧ (∀ id rest c p u q l r, ¬ id < 0 → act id = some c →
        c.lits = p ++ u :: (q ++ l :: r) →
        (∀ k ∈ p, valueOf s.pos k < 0) → ¬ valueOf s.pos u < 0 → u ≠ 0 →
        ¬ valueOf s.pos l < 0 → l ≠ u → l ≠ -u →
        checkAntecedents act inact (id :: rest) s
          = .error (.antecedentNotResolvable id))
    ∧ (∀ id rest c, ¬ id < 0 → act id = some c →
        (∀ l ∈ c.lits, valueOf s.pos l < 0) →
        checkAntecedents act inact (id :: rest) s = .ok s)
    ∧ (checkAntecedents act inact [] s = .error .resolutionFailed)
    ∧ (∀ ids s2, checkAntecedents act inact ids s = .ok s2 →
        ∃ p id r, ids = p ++ id :: r
          ∧ anteTrace act inact ids s = p ++ [id]) := by
  refine ⟨fun ids => anteTrace_isPrefix act inact ids s, ?_, ?_, ?_, ?_,
    rfl, ?_⟩
  · intro id rest hid hact hinact
    exact checkAntecedents_notFound act inact id rest s hid hact hinact
  · intro id rest c hid hact hinact
    exact checkAntecedents_weakened act inact id rest s c hid hact hinact
  · intro id rest c p u q l r hid hact hsplit hp hu hu0 hl hlu hlnu
    refine checkAntecedents_notResolvable act inact id rest s c hid hact ?_
    rw [hsplit]
    exact resolveLoop_error_of_two p u (q ++ l :: r) s hp hu hu0 l
      (by simp) hl hlu hlnu
  · intro id rest c hid hact hfals
    exact checkAntecedents_conflict act inact id rest s c hid hact hfals
  · intro ids s2 hok
    exact checkAntecedents_ok_conflict act inact ids s s2 hok

/-- Witness for C3 at concrete tables and states. -/
theorem c3_antecedent_phase_witness :
    (anteTrace witActive witInactive [1, 3] witState <+: [1, 3])
    ∧ checkAntecedents witActive witInactive [4] cleanState
        = .error (.antecedentNotFound 4)
    ∧ checkAntecedents witActive witInactive [2] cleanState
        = .error (.antecedentWeakened 2)
    ∧ checkAntecedents witActive witInactive [3] cleanState
        = .error (.antecedentNotResolvable 3)
    ∧ checkAntecedents witActive witInactive [1] witState = .ok witState
    ∧ checkAntecedents witActive witInactive [] cleanState
        = .error .resolutionFailed
    ∧ (∃ p id r, ([1] : List Int) = p ++ id :: r
        ∧ anteTrace witActive witInactive [1] witState = p ++ [id]) := by
  obtain ⟨-, h2, h3, h4, -, h6, -⟩ :=
    c3_antecedent_phase witActive witInactive cleanState
  obtain ⟨g1, -, -, -, g5, -, g7⟩ :=
    c3_antecedent_phase witActive witInactive witState
  have hconflict : checkAntecedents witActive witInactive [1] witState
      = .ok witState := by
    refine g5 1 [] witClauseA (by decide) (by decide) ?_
    intro l hl
    have : l = 5 := by
      rcases List.mem_singleton.1 hl with h
      exact h
    rw [this]
    decide
  refine ⟨g1 [1, 3], ?_, ?_, ?_, hconflict, h6, g7 [1] witState hconflict⟩
  · exact h2 4 [] (by decide) (by decide) (by decide)
  · exact h3 2 [] witClauseA (by decide) (by decide) (by decide)
  · refine h4 3 [] witClauseB [] 1 [] 2 [] (by decide) (by decide)
      (by decide) ?_ (by decide) (by decide) (by decide) (by decide)
      (by decide)
    intro k hk
    cases hk

/-- C4: a tautological line (some literal and its negation both occur)
makes `check_implied` succeed in the assumption phase, before any
antecedent is consulted: the result does not depend on the tables or on
the id list (they are arbitrary here), no antecedent id is consulted,
and the state is clean again. -/
theorem c4_tautological_line (lits : List Int) (x sign : Int)
    (hx : x ∈ lits) (hnx : -x ∈ lits) (hx0 : x ≠ 0)
    (hsign : sign = 1 ∨ sign = -1) (act inact : Int → Option Clause)
    (ids : List Int) :
    checkImplied false act inact lits ids sign cleanState = .ok cleanState
    ∧ checkImpliedTrace false act inact lits ids sign cleanState = [] := by
  have hsx : sign * x ≠ 0 := by
    rcases hsign with rfl | rfl <;> simpa using hx0
  have htaut := assumeLits_taut_of_both sign lits cleanState x hsx hx hnx
  constructor
  · unfold checkImplied
    rw [if_neg (by simp), if_pos htaut,
      backtrack_of_invPS _ (assumeLits_invPS sign lits cleanState invPS_clean)]
  · unfold checkImpliedTrace
    rw [if_neg (by simp), if_pos htaut]

/-- Witness for C4: the tautological line `l ... 1 -1 0` with arbitrary
antecedent id `9` is accepted without consulting the tables. -/
theorem c4_tautological_line_witness :
    checkImplied false witActive witInactive [1, -1] [9] 1 cleanState
      = .ok cleanState
    ∧ checkImpliedTrace false witActive witInactive [1, -1] [9] 1 cleanState
      = [] :=
  c4_tautological_line [1, -1] 1 1 (by decide) (by decide) (by decide)
    (Or.inl rfl) witActive witInactive [9]

/-- C5: every returning call of `check_implied` (started, as always
between lines, from the clean global assignment) returns with the trail
empty and every literal unassigned again, including the early-success
cases (inconsistent formula, tautological line, conflicting
antecedent). -/
theorem c5_trail_unwound (inconsistent : Bool)
    (act inact : Int → Option Clause) (lits ids : List Int) (sign : Int)
    (s' : PropState)
    (hok : checkImplied inconsistent act inact lits ids sign cleanState
      = .ok s') :
    s'.trail = [] ∧ s'.pos = ∅ ∧ ∀ l : Int, valueOf s'.pos l = 0 := by
  obtain ⟨h1, h2⟩ :=
    checkImplied_ok_clean inconsistent act inact lits ids sign s' hok
  refine ⟨h2, h1, ?_⟩
  intro l
  rw [h1]
  unfold valueOf
  simp

/-- Witness for C5 on a concrete successful run (conflict through the
antecedent `1`). -/
theorem c5_trail_unwound_witness :
    checkImplied false witActive witInactive [5] [1] 1 cleanState
      = .ok cleanState
    ∧ cleanState.trail = [] ∧ cleanState.pos = ∅
    ∧ valueOf cleanState.pos 7 = 0 := by
  have hok : checkImplied false witActive witInactive [5] [1] 1 cleanState
      = .ok cleanState := by rfl
  obtain ⟨h1, h2, h3⟩ :=
    c5_trail_unwound false witActive witInactive [5] [1] 1 cleanState hok
  exact ⟨hok, h1, h2, h3 7⟩

/-! ## Claim C6 -/

/-- C6: every marks-based line-set utility (subset and set-equality
matching, the tautology test, the consistency tests, the query-subset
checks, the model check against the input clauses, and the
failed-literals-match-core check), started on the all-false marks array,
returns with the marks array all-false again; failures terminate the
process, so after every fully processed line the marks are all-false. -/
theorem c6_marks_clean :
    (∀ a b : List Int, (subsetLiterals a b ∅).2 = ∅)
    ∧ (∀ a b : List Int, (matchLiterals a b ∅).2 = ∅)
    ∧ (∀ lits : List Int, (lineIsTautological lits ∅).2 = ∅)
    ∧ (∀ t lits m', checkLineConsistency t lits ∅ = .ok m' → m' = ∅)
    ∧ (∀ t lits saved m',
        checkLineConsistentWithSaved t lits saved ∅ = .ok m' → m' = ∅)
    ∧ (∀ lits cs m',
        checkLineSatisfiesInputClauses lits cs ∅ = .ok m' → m' = ∅)
    ∧ (∀ lits query m',
        checkLineSatisfiesQuery lits query ∅ = .ok m' → m' = ∅)
    ∧ (∀ lits query m',
        checkCoreSubsetOfQuery lits query ∅ = .ok m' → m' = ∅)
    ∧ (∀ lits query m',
        checkLineVariablesSubsetOfQuery lits query ∅ = .ok m' → m' = ∅)
    ∧ (∀ lits saved m',
        checkSavedFailedLiteralsMatchCore lits saved ∅ = .ok m' → m' = ∅)
    ∧ (∀ t lits saved m', matchSaved t lits saved ∅ = .ok m' → m' = ∅) :=
  ⟨subsetLiterals_snd, matchLiterals_snd, lineIsTautological_snd,
    checkLineConsistency_ok_eq, checkLineConsistentWithSaved_ok_eq,
    checkLineSatisfiesInputClauses_ok_eq, checkLineSatisfiesQuery_ok_eq,
    checkCoreSubsetOfQuery_ok_eq, checkLineVariablesSubsetOfQuery_ok_eq,
    checkSavedFailedLiteralsMatchCore_ok_eq, matchSaved_ok_eq⟩

/-- Witness for C6: each utility run on a concrete line leaves the marks
array empty. -/
theorem c6_marks_clean_witness :
    (subsetLiterals [1] [1, 2] ∅).2 = ∅
    ∧ (matchLiterals [2, 1] [1, 2] ∅).2 = ∅
    ∧ (lineIsTautological [1, -1] ∅).2 = ∅
    ∧ checkLineConsistency 'm' [1, 2] ∅ = .ok ∅
    ∧ checkLineConsistentWithSaved 'm' [1, 2] [1] ∅ = .ok ∅
    ∧ checkLineSatisfiesInputClauses [1] [witClauseB] ∅ = .ok ∅
    ∧ checkLineSatisfiesQuery [1, 2] [1] ∅ = .ok ∅
    ∧ checkCoreSubsetOfQuery [1] [1, 2] ∅ = .ok ∅
    ∧ checkLineVariablesSubsetOfQuery [-1] [1, 2] ∅ = .ok ∅
    ∧ checkSavedFailedLiteralsMatchCore [1] [1, 2] ∅ = .ok ∅
    ∧ matchSaved 'u' [2, 1] [1, 2] ∅ = .ok ∅ := by
  obtain ⟨w1, w2, w3, w4, w5, w6, w7, w8, w9, w10, w11⟩ := c6_marks_clean
  obtain ⟨m4, h4⟩ : ∃ m', checkLineConsistency 'm' [1, 2] ∅ = .ok m' :=
    ⟨_, rfl⟩
  obtain ⟨m5, h5⟩ :
      ∃ m', checkLineConsistentWithSaved 'm' [1, 2] [1] ∅ = .ok m' :=
    ⟨_, rfl⟩
  obtain ⟨m6, h6⟩ :
      ∃ m', checkLineSatisfiesInputClauses [1] [witClauseB] ∅ = .ok m' :=
    ⟨_, rfl⟩
  obtain ⟨m7, h7⟩ : ∃ m', checkLineSatisfiesQuery [1, 2] [1] ∅ = .ok m' :=
    ⟨_, rfl⟩
  obtain ⟨m8, h8⟩ : ∃ m', checkCoreSubsetOfQuery [1] [1, 2] ∅ = .ok m' :=
    ⟨_, rfl⟩
  obtain ⟨m9, h9⟩ :
      ∃ m', checkLineVariablesSubsetOfQuery [-1] [1, 2] ∅ = .ok m' :=
    ⟨_, rfl⟩
  obtain ⟨m10, h10⟩ :
      ∃ m', checkSavedFailedLiteralsMatchCore [1] [1, 2] ∅ = .ok m' :=
    ⟨_, rfl⟩
  obtain ⟨m11, h11⟩ : ∃ m', matchSaved 'u' [2, 1] [1, 2] ∅ = .ok m' :=
    ⟨_, rfl⟩
  refine ⟨w1 [1] [1, 2], w2 [2, 1] [1, 2], w3 [1, -1], ?_, ?_, ?_, ?_, ?_,
    ?_, ?_, ?_⟩
  · rw [w4 'm' [1, 2] m4 h4] at h4; exact h4
  · rw [w5 'm' [1, 2] [1] m5 h5] at h5; exact h5
  · rw [w6 [1] [witClauseB] m6 h6] at h6; exact h6
  · rw [w7 [1, 2] [1] m7 h7] at h7; exact h7
  · rw [w8 [1] [1, 2] m8 h8] at h8; exact h8
  · rw [w9 [-1] [1, 2] m9 h9] at h9; exact h9
  · rw [w10 [1] [1, 2] m10 h10] at h10; exact h10
  · rw [w11 'u' [2, 1] [1, 2] m11 h11] at h11; exact h11

/-! ## Claims C1 and C2 (conclusion handling) -/

theorem bindE_ok {α β : Type} (a : α) (f : α → Except Error β) :
    (Except.ok a >>= f) = f a := rfl

theorem bindE_error {α β : Type} (e : Error) (f : α → Except Error β) :
    ((Except.error e : Except Error α) >>= f) = .error e := rfl

/-- C1 (amended): in two-file mode, the proof `m` line processed in state
`PROOF_MODEL` is accepted, concluding the query through
`conclude_query (10)`, exactly when it is consistent, satisfies the
current query, satisfies every input clause, and is *consistent with*
the saved interaction line (no saved literal occurs negated in the `m`
line) — not set-equal to it. -/
theorem c1_proof_model_conclusion (lits query : List Int)
    (inputs : List Clause) (saved : List Int) :
    (proofModelStep 'm' lits 2 query inputs saved true ∅
        = .ok (10, false, ∅)
      ↔ (lits.Pairwise (fun a b => b ≠ -a)
         ∧ (∀ q ∈ query, q ∈ lits)
         ∧ (∀ c ∈ inputs, SatisfiedBy lits c)
         ∧ (∀ l ∈ saved, -l ∉ lits)))
    ∧ (∀ ty, ty ≠ 'm' →
        proofModelStep ty lits 2 query inputs saved true ∅
          = .error .parseError) := by
  constructor
  · show concludeSatisfiableQueryWithModel 2 query inputs saved true lits ∅
        = .ok (10, false, ∅) ↔ _
    unfold concludeSatisfiableQueryWithModel
    constructor
    · intro hok
      rcases h1 : checkLineConsistency 'm' lits ∅ with e | m1
      · rw [h1, bindE_error] at hok; cases hok
      · rw [h1, bindE_ok] at hok
        rcases checkLineConsistency_ok_eq 'm' lits m1 h1 with rfl
        rcases h2 : checkLineSatisfiesQuery lits query ∅ with e | m2
        · rw [h2, bindE_error] at hok; cases hok
        · rw [h2, bindE_ok] at hok
          rcases checkLineSatisfiesQuery_ok_eq lits query m2 h2 with rfl
          rcases h3 : checkLineSatisfiesInputClauses lits inputs ∅
            with e | m3
          · rw [h3, bindE_error] at hok; cases hok
          · rw [h3, bindE_ok] at hok
            rcases checkLineSatisfiesInputClauses_ok_eq lits inputs m3 h3
              with rfl
            rw [if_pos (by decide : (2 : Nat) > 1)] at hok
            rcases h4 : checkLineConsistentWithSaved 'm' lits saved ∅
              with e | m4
            · rw [h4, bindE_error] at hok; cases hok
            · exact ⟨(checkLineConsistency_ok_iff 'm' lits).1 ⟨_, h1⟩,
                (checkLineSatisfiesQuery_ok_iff lits query).1 ⟨_, h2⟩,
                (checkLineSatisfiesInputClauses_ok_iff lits inputs).1
                  ⟨_, h3⟩,
                (checkLineConsistentWithSaved_ok_iff 'm' lits saved).1
                  ⟨_, h4⟩⟩
    · rintro ⟨hcons, hquery, hinputs, hsaved⟩
      obtain ⟨m1, h1⟩ := (checkLineConsistency_ok_iff 'm' lits).2 hcons
      rcases checkLineConsistency_ok_eq 'm' lits m1 h1 with rfl
      obtain ⟨m2, h2⟩ := (checkLineSatisfiesQuery_ok_iff lits query).2 hquery
      rcases checkLineSatisfiesQuery_ok_eq lits query m2 h2 with rfl
      obtain ⟨m3, h3⟩ :=
        (checkLineSatisfiesInputClauses_ok_iff lits inputs).2 hinputs
      rcases checkLineSatisfiesInputClauses_ok_eq lits inputs m3 h3 with rfl
      obtain ⟨m4, h4⟩ :=
        (checkLineConsistentWithSaved_ok_iff 'm' lits saved).2 hsaved
      rcases checkLineConsistentWithSaved_ok_eq 'm' lits saved m4 h4
        with rfl
      rw [h1, bindE_ok, h2, bindE_ok, h3, bindE_ok,
        if_pos (by decide : (2 : Nat) > 1), h4, bindE_ok]
      rfl
  · intro ty hty
    unfold proofModelStep
    rw [if_neg hty]

/-- Counterexample to C1 as stated: the proof `m` line `m 1 2 0` after a
saved interaction `v 1 0` is *not* set-equal to the saved line (the
checker's own `match_literals` says so), yet the conclusion is accepted
and the query concluded with 10 — the code only checks consistency with
the saved line (`check_line_consistent_with_saved`), not set equality. -/
theorem c1_counterexample :
    proofModelStep 'm' [1, 2] 2 [] [] [1] true ∅ = .ok (10, false, ∅)
    ∧ (matchLiterals [1, 2] [1] ∅).1 = false := by
  constructor
  · rfl
  · rfl

/-- Witness for C1 at a concrete accepted conclusion and a concrete
rejected line type. -/
theorem c1_proof_model_conclusion_witness :
    proofModelStep 'm' [1, 2] 2 [1] [witClauseB] [1] true ∅
      = .ok (10, false, ∅)
    ∧ proofModelStep 'v' [1, 2] 2 [1] [witClauseB] [1] true ∅
      = .error .parseError := by
  obtain ⟨hiff, hother⟩ :=
    c1_proof_model_conclusion [1, 2] [1] [witClauseB] [1]
  refine ⟨hiff.2 ⟨?_, ?_, ?_, ?_⟩, hother 'v' (by decide)⟩
  · decide
  · decide
  · intro c hc
    rcases List.mem_singleton.1 hc with rfl
    intro _
    exact ⟨1, by decide, by decide⟩
  · decide

/-- A clause with the single literal `-1` (conflict antecedent for a
core check under the assumption `1`). -/
def witClauseC : Clause := ⟨7, false, false, false, [-1]⟩

/-- A concrete active map holding only `witClauseC` under id `7`. -/
def witActiveC : Int → Option Clause :=
  fun id => if id = 7 then some witClauseC else none

/-- C2 (amended): in two-file mode, when the interaction file's `u` line
is read in state `INTERACTION_UNSATISFIED`, the line is only saved — no
consistency check and no membership check run at that point.  The
membership condition is enforced later, on the proof's `u` conclusion:
when that conclusion is accepted, the proof core is a subset of the
query and set-equal to the saved interaction `u` line, so every literal
of the saved interaction `u` line is in the query.  Consistency of `u`
lines is never checked (see the counterexample). -/
theorem c2_interaction_unsat_core (query lits ids saved : List Int)
    (inconsistent : Bool) (act inact : Int → Option Clause) (m : Marks) :
    (interactionUnsatisfiedStep 'u' lits query m = .ok ⟨'u', lits, m⟩)
    ∧ (∀ out, concludeUnsatisfiableQueryWithCore 2 query saved 'u'
        inconsistent act inact true lits ids ∅ = .ok out →
        (∀ l ∈ lits, l ∈ query) ∧ (∀ l ∈ saved, l ∈ query)) := by
  constructor
  · unfold interactionUnsatisfiedStep
    rw [if_neg (by decide : ¬('u' = 'f')), if_pos rfl]
  · intro out hok
    unfold concludeUnsatisfiableQueryWithCore at hok
    rcases h1 : checkCoreSubsetOfQuery lits query ∅ with e | m1
    · rw [h1, bindE_error] at hok; cases hok
    · rw [h1, bindE_ok] at hok
      rcases checkCoreSubsetOfQuery_ok_eq lits query m1 h1 with rfl
      rw [if_pos (by decide : (2 : Nat) > 1), if_pos rfl] at hok
      rcases h2 : matchSaved 'u' lits saved ∅ with e | m2
      · rw [h2, bindE_error] at hok; cases hok
      · have hsub := (checkCoreSubsetOfQuery_ok_iff lits query).1 ⟨_, h1⟩
        have hmatch := (matchSaved_ok_iff 'u' lits saved).1 ⟨_, h2⟩
        exact ⟨hsub, fun l hl => hsub l (hmatch.2 l hl)⟩

/-- Counterexample to C2 as stated: the inconsistent interaction line
`u 1 -1 0` is accepted without any check when read (only saved), and
with the query `q 1 -1 0` the whole conclusion — including the proof's
matching `u` line — is accepted with `conclude_query (20)`; no
consistency error is ever raised for `u` lines.  Likewise `u 5 0` under
an empty query raises no error when the interaction line is read. -/
theorem c2_counterexample :
    interactionUnsatisfiedStep 'u' [1, -1] [1, -1] ∅
        = .ok ⟨'u', [1, -1], ∅⟩
    ∧ ¬ ([1, -1] : List Int).Pairwise (fun a b => b ≠ -a)
    ∧ interactionUnsatisfiedStep 'u' [5] [] ∅ = .ok ⟨'u', [5], ∅⟩
    ∧ proofCoreStep 'u' [1, -1] [] 2 [1, -1] [1, -1] 'u' false
        witActive witInactive true ∅ = .ok (20, false, ∅) := by
  refine ⟨rfl, by decide, rfl, rfl⟩

/-- Witness for C2 on a concrete interaction `u` line and a concrete
accepted proof conclusion. -/
theorem c2_interaction_unsat_core_witness :
    interactionUnsatisfiedStep 'u' [1] [1] ∅ = .ok ⟨'u', [1], ∅⟩
    ∧ concludeUnsatisfiableQueryWithCore 2 [1] [1] 'u' false
        witActiveC witInactive true [1] [7] ∅ = .ok (20, false, ∅)
    ∧ (1 : Int) ∈ ([1] : List Int) := by
  obtain ⟨ha, hb⟩ :=
    c2_interaction_unsat_core [1] [1] [7] [1] false witActiveC witInactive ∅
  have hcon : concludeUnsatisfiableQueryWithCore 2 [1] [1] 'u' false
      witActiveC witInactive true [1] [7] ∅ = .ok (20, false, ∅) := rfl
  exact ⟨ha, hcon, (hb _ hcon).2 1 (by decide)⟩

/-! ## List and table helper lemmas for the clause store -/

theorem List_set_eq_of_getElem {α : Type} (l : List α) (n : Nat) (a : α)
    (h : l[n]? = some a) : l.set n a = l := by
  induction l generalizing n with
  | nil => cases h
  | cons x xs ih =>
      cases n with
      | zero =>
          simp only [List.getElem?_cons_zero, Option.some.injEq] at h
          rw [h]
          rfl
      | succ m =>
          simp only [List.set_cons_succ, List.cons.injEq, true_and]
          exact ih m (by simpa using h)

theorem getD_some_lt {α : Type} (l : List (Option α)) (n : Nat) (a : α)
    (h : l.getD n none = some a) : n < l.length := by
  by_contra hc
  rw [List.getD_eq_getElem?_getD, List.getElem?_eq_none (by omega)] at h
  cases h

theorem getD_set_self {α : Type} (l : List (Option α)) (n : Nat)
    (v : Option α) (h : n < l.length) : (l.set n v).getD n none = v := by
  rw [List.getD_eq_getElem?_getD, List.getElem?_set_eq_of_lt v h]
  rfl

theorem getD_of_getElem {α : Type} (l : List (Option α)) (n : Nat) (a : α)
    (h : l.getD n none = some a) : l[n]? = some (some a) := by
  rcases hg : l[n]? with _ | v
  · simp [List.getD_eq_getElem?_getD, hg] at h
  · rw [List.getD_eq_getElem?_getD, hg] at h
    simp only [Option.getD_some] at h
    rw [h]

theorem set_getD_id {α : Type} (l : List (Option α)) (n : Nat) (a : α)
    (h : l.getD n none = some a) : l.set n (some a) = l :=
  List_set_eq_of_getElem l n (some a) (getD_of_getElem l n a h)

/-! Lookup and removal in the identifier tables. -/

theorem lookupTbl_eq_none_of_not_mem (tbl : Table) (id : Int)
    (h : id ∉ tbl.map Prod.fst) : lookupTbl tbl id = none := by
  induction tbl with
  | nil => rfl
  | cons e rest ih =>
      have hne : (e.1 == id) = false := by
        simp only [beq_eq_false_iff_ne, ne_eq]
        intro hc
        exact h (by simp [hc])
      unfold lookupTbl at *
      simp only [List.find?_cons, hne]
      exact ih (fun hc => h (List.mem_cons_of_mem _ hc))

theorem lookupTbl_mem_snd (tbl : Table) (id : Int) (r : Nat)
    (h : lookupTbl tbl id = some r) : r ∈ tbl.map Prod.snd := by
  induction tbl with
  | nil => cases h
  | cons e rest ih =>
      unfold lookupTbl at h
      rcases he : (e.1 == id) with _ | _
      · simp only [List.find?_cons, he] at h
        exact List.mem_cons_of_mem _ (ih h)
      · simp only [List.find?_cons, he] at h
        simp only [Option.map_some', Option.some.injEq] at h
        rw [← h]
        simp

theorem lookupTbl_cons_self (e : Int × Nat) (tbl : Table) :
    lookupTbl (e :: tbl) e.1 = some e.2 := by
  unfold lookupTbl
  simp only [List.find?_cons, beq_self_eq_true]
  rfl

theorem removeEntry_not_mem (tbl : Table) (r : Nat)
    (h : (tbl.map Prod.snd).Nodup) :
    r ∉ (removeEntry tbl r).map Prod.snd := by
  induction tbl with
  | nil => simp [removeEntry]
  | cons e rest ih =>
      unfold removeEntry at *
      rw [List.map_cons, List.nodup_cons] at h
      rcases he : (e.2 == r) with _ | _
      · simp only [List.eraseP_cons, he, cond_false]
        rw [List.map_cons, List.mem_cons]
        rintro (hc | hc)
        · rw [beq_eq_false_iff_ne] at he
          exact he hc.symm
        · exact (ih h.2) hc
      · simp only [List.eraseP_cons, he, cond_true]
        rw [beq_iff_eq] at he
        rw [← he]
        exact h.1

theorem removeEntry_of_not_mem (tbl : Table) (r : Nat)
    (h : r ∉ tbl.map Prod.snd) : removeEntry tbl r = tbl := by
  induction tbl with
  | nil => rfl
  | cons e rest ih =>
      have hne : (e.2 == r) = false := by
        simp only [beq_eq_false_iff_ne, ne_eq]
        intro hc
        exact h (by simp [hc])
      unfold removeEntry at *
      simp only [List.eraseP_cons, hne, cond_false]
      rw [ih (fun hc => h (List.mem_cons_of_mem _ hc))]

theorem lookupTbl_removeEntry_none (tbl : Table) (id : Int) (r : Nat)
    (hids : (tbl.map Prod.fst).Nodup) (hrefs : (tbl.map Prod.snd).Nodup)
    (hfind : lookupTbl tbl id = some r) :
    lookupTbl (removeEntry tbl r) id = none := by
  induction tbl with
  | nil => cases hfind
  | cons e rest ih =>
      rw [List.map_cons, List.nodup_cons] at hids hrefs
      unfold lookupTbl at hfind
      rcases he : (e.1 == id) with _ | _
      · simp only [List.find?_cons, he] at hfind
        have hner : (e.2 == r) = false := by
          simp only [beq_eq_false_iff_ne, ne_eq]
          intro hc
          rw [hc] at hrefs
          exact hrefs.1 (lookupTbl_mem_snd rest id r hfind)
        unfold removeEntry
        simp only [List.eraseP_cons, hner, cond_false]
        unfold lookupTbl
        simp only [List.find?_cons, he]
        exact ih hids.2 hrefs.2 hfind
      · simp only [List.find?_cons, he] at hfind
        simp only [Option.map_some', Option.some.injEq] at hfind
        unfold removeEntry
        simp only [List.eraseP_cons, hfind, beq_self_eq_true, cond_true]
        refine lookupTbl_eq_none_of_not_mem rest id ?_
        rw [beq_iff_eq] at he
        rw [← he]
        exact hids.1

theorem getD_append_self {α : Type} (l : List (Option α)) (v : Option α) :
    (l ++ [v]).getD l.length none = v := by
  rw [List.getD_eq_getElem?_getD, List.getElem?_append_right (le_refl _)]
  simp

/-- Field-level effect of `delete_clause`: only the active table (and,
for a learned clause, the heap cell) change; the inactive table, the
input-clause list and the used-id set are untouched. -/
theorem deleteClause_fields (st : Store) (r : Nat) :
    (st.deleteClause r).active = removeEntry st.active r
    ∧ (st.deleteClause r).inactive = st.inactive
    ∧ (st.deleteClause r).inputClauses = st.inputClauses
    ∧ (st.deleteClause r).used = st.used := by
  rcases h : st.clauseAt r with _ | c
  · simp [Store.deleteClause, Store.removeActive, Store.freeClause, h]
  · by_cases hi : c.input = true <;>
      simp [Store.deleteClause, Store.removeActive, Store.freeClause, h, hi]

/-! ## Claim C7 -/

/-- C7 (amended): a clause allocated from a parsed line copies the
line's literal sequence verbatim — the checker never deduplicates, so
repeated literals stay; the identifier, `input` flag and cleared
`weakened` flag are stored, and the `tautological` flag is computed at
allocation, true exactly when some variable occurs with both
polarities. -/
theorem c7_allocate_clause (st : Store) (input : Bool) (id : Int)
    (lits : List Int) :
    ∃ c, (st.allocateClause input id lits).1.clauseAt
          (st.allocateClause input id lits).2 = some c
      ∧ c.id = id ∧ c.input = input ∧ c.weakened = false ∧ c.lits = lits
      ∧ (c.tautological = true ↔ ∃ x, x ≠ 0 ∧ x ∈ lits ∧ -x ∈ lits) := by
  refine ⟨{ id := id, input := input, weakened := false,
            tautological := (lineIsTautological lits ∅).1, lits := lits },
    ?_, rfl, rfl, rfl, rfl, lineIsTautological_iff lits⟩
  show (st.heap ++ [some _]).getD st.heap.length none = some _
  exact getD_append_self st.heap _

/-- The clause record produced by the line `i 7 1 1 0` (a repeated
literal). -/
def witDupClause : Clause := ⟨7, true, false, false, [1, 1]⟩

/-- Counterexample to C7 as stated: the line `i 7 1 1 0` allocates a
clause whose literal array holds the literal `1` at two distinct
positions — `allocate_clause` copies `line.lits` verbatim and nothing
deduplicates. -/
theorem c7_counterexample :
    (Store.empty.allocateClause true 7 [1, 1]).1.clauseAt
        (Store.empty.allocateClause true 7 [1, 1]).2 = some witDupClause
    ∧ witDupClause.lits.get ⟨0, by decide⟩ = witDupClause.lits.get ⟨1, by decide⟩
    ∧ ¬ witDupClause.lits.Nodup :=
  ⟨rfl, rfl, by decide⟩

/-- Witness for C7 on the line `l 9 1 -1 0` (tautological, no
duplicates). -/
theorem c7_allocate_clause_witness :
    ∃ c, (Store.empty.allocateClause false 9 [1, -1]).1.clauseAt
          (Store.empty.allocateClause false 9 [1, -1]).2 = some c
      ∧ c.id = 9 ∧ c.input = false ∧ c.weakened = false ∧ c.lits = [1, -1]
      ∧ (c.tautological = true ↔
          ∃ x, x ≠ 0 ∧ x ∈ ([1, -1] : List Int) ∧ -x ∈ ([1, -1] : List Int)) :=
  c7_allocate_clause Store.empty false 9 [1, -1]

/-! ## Claim C8 -/

/-- C8: identifier-reuse policy of `check_unused`.  With `no-reuse`, an
identifier already in the used bit-set is a line error, and a fresh
identifier is recorded; without the option, an identifier found in the
active or the inactive table is a line error, one absent from both is
accepted, and in particular after deleting the clause holding the
identifier (with no other table entry for it) the identifier is
accepted again. -/
theorem c8_id_reuse_policy (st : Store) (id : Int) :
    (id ∈ st.used → Store.checkUnused true st id = .error (.idAlreadyUsed id))
    ∧ (id ∉ st.used →
        Store.checkUnused true st id = .ok { st with used := id :: st.used })
    ∧ (∀ r, st.findActiveRef id = some r →
        Store.checkUnused false st id = .error (.idActivelyInUse id))
    ∧ (∀ r, st.findActiveRef id = none → st.findInactiveRef id = some r →
        Store.checkUnused false st id = .error (.idInactiveInUse id))
    ∧ (st.findActiveRef id = none → st.findInactiveRef id = none →
        Store.checkUnused false st id = .ok st)
    ∧ (∀ r, (st.active.map Prod.fst).Nodup → (st.active.map Prod.snd).Nodup →
        st.findActiveRef id = some r → st.findInactiveRef id = none →
        Store.checkUnused false (st.deleteClause r) id
          = .ok (st.deleteClause r)) := by
  refine ⟨?_, ?_, ?_, ?_, ?_, ?_⟩
  · intro h
    simp [Store.checkUnused, h]
  · intro h
    simp [Store.checkUnused, h]
  · intro r h
    simp [Store.checkUnused, h]
  · intro r h1 h2
    simp [Store.checkUnused, h1, h2]
  · intro h1 h2
    simp [Store.checkUnused, h1, h2]
  · intro r hid hrefs hact hinact
    obtain ⟨ha, hi, -, -⟩ := deleteClause_fields st r
    have h1 : (st.deleteClause r).findActiveRef id = none := by
      unfold Store.findActiveRef
      rw [ha]
      exact lookupTbl_removeEntry_none st.active id r hid hrefs hact
    have h2 : (st.deleteClause r).findInactiveRef id = none := by
      unfold Store.findInactiveRef
      rw [hi]
      exact hinact
    simp [Store.checkUnused, h1, h2]

/-- A concrete store: `witClauseA` on the heap at reference 0, active
under id `5`, with id `5` in the used bit-set and reference 0 on the
input-clause list. -/
def witStore : Store := ⟨[some witClauseA], [(5, 0)], [], [0], [5]⟩

/-- A concrete store with the clause inactive under id `5`. -/
def witStoreInactive : Store := ⟨[some witClauseA], [], [(5, 0)], [], []⟩

/-- Witness for C8 at concrete stores. -/
theorem c8_id_reuse_policy_witness :
    Store.checkUnused true witStore 5 = .error (.idAlreadyUsed 5)
    ∧ Store.checkUnused true witStore 6
        = .ok { witStore with used := 6 :: witStore.used }
    ∧ Store.checkUnused false witStore 5 = .error (.idActivelyInUse 5)
    ∧ Store.checkUnused false witStoreInactive 5
        = .error (.idInactiveInUse 5)
    ∧ Store.checkUnused false witStore 9 = .ok witStore
    ∧ Store.checkUnused false (witStore.deleteClause 0) 5
        = .ok (witStore.deleteClause 0) := by
  obtain ⟨w1, w2, w3, -, w5, w6⟩ := c8_id_reuse_policy witStore 5
  obtain ⟨-, v2, -, -, -, -⟩ := c8_id_reuse_policy witStore 6
  obtain ⟨-, -, -, u4, -, -⟩ := c8_id_reuse_policy witStoreInactive 5
  obtain ⟨-, -, -, -, t5, -⟩ := c8_id_reuse_policy witStore 9
  exact ⟨w1 (by decide), v2 (by decide), w3 0 rfl, u4 0 rfl rfl,
    t5 rfl rfl, w6 0 (by decide) (by decide) rfl rfl⟩

/-! ## Claim C9 -/

theorem weakenClause_eq (st : Store) (r : Nat) (c : Clause)
    (hclause : st.clauseAt r = some c) :
    st.weakenClause r =
      ⟨st.heap.set r (some { c with weakened := true }),
       removeEntry st.active r,
       (c.id, r) :: st.inactive,
       st.inputClauses, st.used⟩ := by
  have hlt : r < st.heap.length := getD_some_lt st.heap r c hclause
  unfold Store.clauseAt at hclause
  simp only [Store.weakenClause, Store.setWeakened, Store.removeActive,
    Store.insertInactive, Store.clauseAt, hclause]
  rw [getD_set_self st.heap r _ hlt]

theorem restoreClause_eq (st : Store) (r : Nat) (c : Clause)
    (hclause : st.clauseAt r = some c) :
    st.restoreClause r =
      ⟨st.heap.set r (some { c with weakened := false }),
       (c.id, r) :: st.active,
       removeEntry st.inactive r,
       st.inputClauses, st.used⟩ := by
  unfold Store.clauseAt at hclause
  simp only [Store.restoreClause, Store.setWeakened, Store.removeInactive,
    Store.insertActive, Store.clauseAt, hclause]

/-- C9: weakening an active clause and then restoring it is a round
trip.  With the clause record `c` at reference `r`, active under its
identifier and not in the inactive table: the `w` step succeeds, the `r`
step succeeds, afterwards the clause is again active under its
identifier at the *same reference* (the record never moves), the heap is
exactly the original one (identifier, literal sequence, `tautological`
flag, and the cleared `weakened` flag are all restored), and at the
initial, intermediate (between the remove and the insert of each move),
weakened, and final states the reference is in at most one of the two
tables. -/
theorem c9_weaken_restore_roundtrip (st : Store) (id : Int) (r : Nat)
    (c : Clause)
    (hact : st.findActiveRef id = some r)
    (hclause : st.clauseAt r = some c)
    (hcid : c.id = id)
    (hw : c.weakened = false)
    (hrefs : (st.active.map Prod.snd).Nodup)
    (hrinact : r ∉ st.inactive.map Prod.snd) :
    ∃ st1 st2,
      Store.findThenWeaken st id = .ok st1
      ∧ Store.findThenRestore st1 id = .ok st2
      ∧ st2.findActiveRef id = some r
      ∧ st2.clauseAt r = some c
      ∧ st2.heap = st.heap
      ∧ (st.clauseAt r).map Clause.weakened = some false
      ∧ (st1.clauseAt r).map Clause.weakened = some true
      ∧ (r ∈ st.active.map Prod.snd ∧ r ∉ st.inactive.map Prod.snd)
      ∧ (r ∉ (((st.setWeakened r true).removeActive r).active.map Prod.snd)
         ∧ r ∉ (((st.setWeakened r true).removeActive r).inactive.map Prod.snd))
      ∧ (r ∉ st1.active.map Prod.snd ∧ r ∈ st1.inactive.map Prod.snd)
      ∧ (r ∉ ((st1.removeInactive r).active.map Prod.snd)
         ∧ r ∉ ((st1.removeInactive r).inactive.map Prod.snd))
      ∧ (r ∈ st2.active.map Prod.snd ∧ r ∉ st2.inactive.map Prod.snd) := by
  have hlt : r < st.heap.length := getD_some_lt st.heap r c hclause
  have hweq := weakenClause_eq st r c hclause
  set cW : Clause := { c with weakened := true } with hcW
  set st1 : Store := ⟨st.heap.set r (some cW), removeEntry st.active r,
    (c.id, r) :: st.inactive, st.inputClauses, st.used⟩ with hst1
  have hclause1 : st1.clauseAt r = some cW := by
    show (st.heap.set r (some cW)).getD r none = some cW
    exact getD_set_self st.heap r _ hlt
  have hcWc : { cW with weakened := false } = c := by
    cases c
    simp only [hcW]
    simp_all
  have hreq := restoreClause_eq st1 r cW hclause1
  set st2 : Store := ⟨(st.heap.set r (some cW)).set r (some { cW with weakened := false }),
    (cW.id, r) :: st1.active,
    removeEntry st1.inactive r,
    st1.inputClauses, st1.used⟩ with hst2
  have hheap2 : st2.heap = st.heap := by
    show (st.heap.set r (some cW)).set r (some { cW with weakened := false })
      = st.heap
    rw [List.set_set, hcWc]
    exact set_getD_id st.heap r c hclause
  refine ⟨st1, st2, ?_, ?_, ?_, ?_, hheap2, ?_, ?_, ?_, ?_, ?_, ?_, ?_⟩
  · unfold Store.findThenWeaken
    rw [hact]
    show Except.ok (st.weakenClause r) = Except.ok st1
    rw [hweq]
  · unfold Store.findThenRestore
    have hfind1 : st1.findInactiveRef id = some r := by
      show lookupTbl ((c.id, r) :: st.inactive) id = some r
      rw [hcid]
      exact lookupTbl_cons_self (id, r) st.inactive
    rw [hfind1]
    show Except.ok (st1.restoreClause r) = Except.ok st2
    rw [hreq]
  · show lookupTbl ((cW.id, r) :: st1.active) id = some r
    have : cW.id = id := by rw [hcW]; exact hcid
    rw [this]
    exact lookupTbl_cons_self (id, r) st1.active
  · show st2.heap.getD r none = some c
    rw [hheap2]
    exact hclause
  · rw [hclause]
    simp [hw]
  · rw [hclause1]
    rfl
  · exact ⟨lookupTbl_mem_snd st.active id r hact, hrinact⟩
  · constructor
    · show r ∉ (removeEntry ((st.setWeakened r true).active) r).map Prod.snd
      show r ∉ (removeEntry st.active r).map Prod.snd
      exact removeEntry_not_mem st.active r hrefs
    · exact hrinact
  · constructor
    · exact removeEntry_not_mem st.active r hrefs
    · show r ∈ ((c.id, r) :: st.inactive).map Prod.snd
      simp
  · constructor
    · show r ∉ (removeEntry st.active r).map Prod.snd
      exact removeEntry_not_mem st.active r hrefs
    · show r ∉ (removeEntry ((c.id, r) :: st.inactive) r).map Prod.snd
      unfold removeEntry
      rw [List.eraseP_cons]
      simp only [beq_self_eq_true, cond_true]
      exact hrinact
  · constructor
    · show r ∈ ((cW.id, r) :: st1.active).map Prod.snd
      simp
    · show r ∉ (removeEntry ((c.id, r) :: st.inactive) r).map Prod.snd
      unfold removeEntry
      rw [List.eraseP_cons]
      simp only [beq_self_eq_true, cond_true]
      exact hrinact

/-- A store with `witClauseA` active under its id `1` at reference 0. -/
def witStoreW : Store := ⟨[some witClauseA], [(1, 0)], [], [], []⟩

/-- Witness for C9: the concrete round trip `w 1` then `r 1`. -/
theorem c9_weaken_restore_roundtrip_witness :
    ∃ st1 st2,
      Store.findThenWeaken witStoreW 1 = .ok st1
      ∧ Store.findThenRestore st1 1 = .ok st2
      ∧ st2.findActiveRef 1 = some 0
      ∧ st2.clauseAt 0 = some witClauseA
      ∧ st2.heap = witStoreW.heap := by
  obtain ⟨st1, st2, h1, h2, h3, h4, h5, -, -, -, -, -, -, -⟩ :=
    c9_weaken_restore_roundtrip witStoreW 1 0 witClauseA rfl rfl rfl rfl
      (by decide) (by decide)
  exact ⟨st1, st2, h1, h2, h3, h4, h5⟩

/-! ## Claim C10 -/

/-- The part of a clause record the model check can see: identifier,
`input` flag, literal sequence and `tautological` flag (everything but
the mutable `weakened` flag). -/
def Clause.core (c : Clause) : Int × Bool × List Int × Bool :=
  (c.id, c.input, c.lits, c.tautological)

/-- The clause-store operations driven by `i`, `l`, `d`, `w`, `r`
payload items. -/
inductive StoreOp where
  | alloc (input : Bool) (id : Int) (lits : List Int)
  | del (r : Nat)
  | weak (r : Nat)
  | rest (r : Nat)
deriving DecidableEq

/-- One store operation. -/
def applyOp (st : Store) : StoreOp → Store
  | .alloc input id lits => (st.allocateClause input id lits).1
  | .del r => st.deleteClause r
  | .weak r => st.weakenClause r
  | .rest r => st.restoreClause r

/-- A sequence of store operations. -/
def applyOps (st : Store) (ops : List StoreOp) : Store :=
  ops.foldl applyOp st

/-- The cores of the input clauses introduced by a sequence of
operations, in order. -/
def inputCoresOf (ops : List StoreOp) : List (Int × Bool × List Int × Bool) :=
  ops.filterMap (fun op =>
    match op with
    | .alloc true id lits =>
        some (id, true, lits, (lineIsTautological lits ∅).1)
    | _ => none)

/-- Invariant: every reference on the `input_clauses` list points to a
live input clause. -/
def InputRefsOk (st : Store) : Prop :=
  ∀ r ∈ st.inputClauses, ∃ c, st.clauseAt r = some c ∧ c.input = true

theorem getD_set_ne {α : Type} (l : List (Option α)) (r n : Nat)
    (v : Option α) (h : n ≠ r) : (l.set r v).getD n none = l.getD n none := by
  rw [List.getD_eq_getElem?_getD, List.getD_eq_getElem?_getD,
    List.getElem?_set_ne (fun hc => h hc.symm)]

theorem getD_append_left {α : Type} (l l2 : List (Option α)) (n : Nat)
    (h : n < l.length) : (l ++ l2).getD n none = l.getD n none := by
  rw [List.getD_eq_getElem?_getD, List.getD_eq_getElem?_getD,
    List.getElem?_append_left h]

/-- Setting the `weakened` flag of the cell at `r` preserves the core of
every cell. -/
theorem getD_set_weakened_core (l : List (Option Clause)) (r : Nat)
    (b : Bool) (n : Nat) :
    ((l.set r (match l.getD r none with
        | some c => some { c with weakened := b }
        | none => none)).getD n none).map Clause.core
      = ((l.getD n none).map Clause.core) := by
  by_cases hnr : n = r
  · subst hnr
    rcases h : l.getD n none with _ | c
    · by_cases hlt : n < l.length
      · rw [getD_set_self _ _ _ hlt]
      · rw [List.set_eq_of_length_le (by omega), h]
    · have hlt := getD_some_lt l n c h
      rw [getD_set_self _ _ _ hlt]
      rfl
  · rw [getD_set_ne _ _ _ _ hnr]

theorem insertInactive_hi (st : Store) (r : Nat) :
    (st.insertInactive r).heap = st.heap
    ∧ (st.insertInactive r).inputClauses = st.inputClauses := by
  unfold Store.insertInactive
  rcases h : st.clauseAt r with _ | c
  · exact ⟨rfl, rfl⟩
  · exact ⟨rfl, rfl⟩

theorem insertActive_hi (st : Store) (r : Nat) :
    (st.insertActive r).heap = st.heap
    ∧ (st.insertActive r).inputClauses = st.inputClauses := by
  unfold Store.insertActive
  rcases h : st.clauseAt r with _ | c
  · exact ⟨rfl, rfl⟩
  · exact ⟨rfl, rfl⟩

theorem weakenClause_hi (st : Store) (r : Nat) :
    (st.weakenClause r).heap
      = st.heap.set r (match st.heap.getD r none with
          | some c => some { c with weakened := true }
          | none => none)
    ∧ (st.weakenClause r).inputClauses = st.inputClauses := by
  obtain ⟨h1, h2⟩ := insertInactive_hi ((st.setWeakened r true).removeActive r) r
  constructor
  · show (((st.setWeakened r true).removeActive r).insertInactive r).heap = _
    rw [h1]
    rfl
  · show (((st.setWeakened r true).removeActive r).insertInactive r).inputClauses = _
    rw [h2]
    rfl

theorem restoreClause_hi (st : Store) (r : Nat) :
    (st.restoreClause r).heap
      = st.heap.set r (match st.heap.getD r none with
          | some c => some { c with weakened := false }
          | none => none)
    ∧ (st.restoreClause r).inputClauses = st.inputClauses := by
  obtain ⟨h1, h2⟩ := insertActive_hi (st.removeInactive r) r
  constructor
  · show ((st.removeInactive r).insertActive r).heap.set r
        (match ((st.removeInactive r).insertActive r).heap.getD r none with
          | some c => some { c with weakened := false }
          | none => none) = _
    rw [h1]
    rfl
  · show ((st.removeInactive r).insertActive r).inputClauses = _
    rw [h2]
    rfl

theorem weakenClause_core (st : Store) (r n : Nat) :
    ((st.weakenClause r).clauseAt n).map Clause.core
      = (st.clauseAt n).map Clause.core := by
  obtain ⟨hh, -⟩ := weakenClause_hi st r
  show ((st.weakenClause r).heap.getD n none).map _ = _
  rw [hh]
  exact getD_set_weakened_core st.heap r true n

theorem restoreClause_core (st : Store) (r n : Nat) :
    ((st.restoreClause r).clauseAt n).map Clause.core
      = (st.clauseAt n).map Clause.core := by
  obtain ⟨hh, -⟩ := restoreClause_hi st r
  show ((st.restoreClause r).heap.getD n none).map _ = _
  rw [hh]
  exact getD_set_weakened_core st.heap r false n

theorem deleteClause_core (st : Store) (r : Nat) (hinv : InputRefsOk st) :
    ∀ n ∈ st.inputClauses,
      ((st.deleteClause r).clauseAt n).map Clause.core
        = (st.clauseAt n).map Clause.core := by
  intro n hn
  show ((st.deleteClause r).heap.getD n none).map _
      = (st.heap.getD n none).map _
  rcases h : st.clauseAt r with _ | c
  · have hnr : n ≠ r := by
      intro he
      rcases hinv n hn with ⟨c', hc', -⟩
      rw [he, h] at hc'
      cases hc'
    have hheap : (st.deleteClause r).heap = st.heap.set r none := by
      simp [Store.deleteClause, Store.removeActive, Store.freeClause, h]
    rw [hheap, getD_set_ne _ _ _ _ hnr]
  · by_cases hi : c.input = true
    · have hheap : (st.deleteClause r).heap = st.heap := by
        simp [Store.deleteClause, Store.removeActive, Store.freeClause, h, hi]
      rw [hheap]
    · have hnr : n ≠ r := by
        intro he
        rcases hinv n hn with ⟨c', hc', hci⟩
        rw [he, h] at hc'
        cases hc'
        exact absurd hci hi
      have hheap : (st.deleteClause r).heap = st.heap.set r none := by
        simp [Store.deleteClause, Store.removeActive, Store.freeClause, h, hi]
      rw [hheap, getD_set_ne _ _ _ _ hnr]

theorem allocate_hi (st : Store) (input : Bool) (id : Int)
    (lits : List Int) :
    (st.allocateClause input id lits).1.heap
      = st.heap ++ [some ⟨id, input, false, (lineIsTautological lits ∅).1, lits⟩]
    ∧ (st.allocateClause input id lits).1.inputClauses
      = (if input then st.inputClauses ++ [st.heap.length]
         else st.inputClauses) :=
  ⟨rfl, rfl⟩

theorem inputList_core_eq (st st' : Store)
    (hrefs : st'.inputClauses = st.inputClauses)
    (hcore : ∀ n ∈ st.inputClauses,
      (st'.clauseAt n).map Clause.core = (st.clauseAt n).map Clause.core) :
    st'.inputClauseList.map Clause.core
      = st.inputClauseList.map Clause.core := by
  unfold Store.inputClauseList
  rw [hrefs, List.map_filterMap, List.map_filterMap]
  exact List.filterMap_congr hcore

theorem inputRefsOk_of_core (st st' : Store)
    (hrefs : st'.inputClauses = st.inputClauses)
    (hcore : ∀ n ∈ st.inputClauses,
      (st'.clauseAt n).map Clause.core = (st.clauseAt n).map Clause.core)
    (hinv : InputRefsOk st) : InputRefsOk st' := by
  intro n hn
  rw [hrefs] at hn
  rcases hinv n hn with ⟨c, hc, hci⟩
  have hcc := hcore n hn
  rw [hc] at hcc
  rcases h' : st'.clauseAt n with _ | c'
  · rw [h'] at hcc
    cases hcc
  · rw [h'] at hcc
    refine ⟨c', rfl, ?_⟩
    have hco : c'.core = c.core := Option.some.inj hcc
    have hin : c'.input = c.input := congrArg (fun p => p.2.1) hco
    rw [hin, hci]

theorem allocate_core_old (st : Store) (input : Bool) (id : Int)
    (lits : List Int) (hinv : InputRefsOk st) :
    ∀ n ∈ st.inputClauses,
      ((st.allocateClause input id lits).1.clauseAt n).map Clause.core
        = (st.clauseAt n).map Clause.core := by
  intro n hn
  rcases hinv n hn with ⟨c, hc, -⟩
  have hlt : n < st.heap.length := getD_some_lt st.heap n c hc
  show ((st.heap ++ [some _]).getD n none).map _ = _
  rw [getD_append_left _ _ _ hlt]
  rfl

theorem ref_ok_of_core (st st' : Store) (n : Nat)
    (hcore : (st'.clauseAt n).map Clause.core = (st.clauseAt n).map Clause.core)
    (h : ∃ c, st.clauseAt n = some c ∧ c.input = true) :
    ∃ c, st'.clauseAt n = some c ∧ c.input = true := by
  rcases h with ⟨c, hc, hci⟩
  rw [hc] at hcore
  rcases h' : st'.clauseAt n with _ | c'
  · rw [h'] at hcore
    cases hcore
  · rw [h'] at hcore
    have hco : c'.core = c.core := Option.some.inj hcore
    have hin : c'.input = c.input := congrArg (fun p => p.2.1) hco
    exact ⟨c', rfl, by rw [hin]; exact hci⟩

theorem applyOp_cores (st : Store) (op : StoreOp) (hinv : InputRefsOk st) :
    (applyOp st op).inputClauseList.map Clause.core
      = st.inputClauseList.map Clause.core ++ inputCoresOf [op]
    ∧ InputRefsOk (applyOp st op) := by
  cases op with
  | del r =>
    obtain ⟨-, -, hrefs, -⟩ := deleteClause_fields st r
    have hcore := deleteClause_core st r hinv
    refine ⟨?_, inputRefsOk_of_core st _ hrefs hcore hinv⟩
    rw [show applyOp st (.del r) = st.deleteClause r from rfl,
      inputList_core_eq st _ hrefs hcore]
    simp [inputCoresOf]
  | weak r =>
    obtain ⟨-, hrefs⟩ := weakenClause_hi st r
    have hcore : ∀ n ∈ st.inputClauses,
        ((st.weakenClause r).clauseAt n).map Clause.core
          = (st.clauseAt n).map Clause.core :=
      fun n _ => weakenClause_core st r n
    refine ⟨?_, inputRefsOk_of_core st _ hrefs hcore hinv⟩
    rw [show applyOp st (.weak r) = st.weakenClause r from rfl,
      inputList_core_eq st _ hrefs hcore]
    simp [inputCoresOf]
  | rest r =>
    obtain ⟨-, hrefs⟩ := restoreClause_hi st r
    have hcore : ∀ n ∈ st.inputClauses,
        ((st.restoreClause r).clauseAt n).map Clause.core
          = (st.clauseAt n).map Clause.core :=
      fun n _ => restoreClause_core st r n
    refine ⟨?_, inputRefsOk_of_core st _ hrefs hcore hinv⟩
    rw [show applyOp st (.rest r) = st.restoreClause r from rfl,
      inputList_core_eq st _ hrefs hcore]
    simp [inputCoresOf]
  | alloc input id lits =>
    obtain ⟨hheap, hrefs⟩ := allocate_hi st input id lits
    have hcore := allocate_core_old st input id lits hinv
    cases input with
    | false =>
      simp only [Bool.false_eq_true, if_false] at hrefs
      refine ⟨?_, inputRefsOk_of_core st _ hrefs hcore hinv⟩
      rw [show applyOp st (.alloc false id lits)
          = (st.allocateClause false id lits).1 from rfl,
        inputList_core_eq st _ hrefs hcore]
      simp [inputCoresOf]
    | true =>
      simp only [if_true] at hrefs
      have hnew : (st.allocateClause true id lits).1.clauseAt st.heap.length
          = some ⟨id, true, false, (lineIsTautological lits ∅).1, lits⟩ := by
        show (st.allocateClause true id lits).1.heap.getD st.heap.length none
          = _
        rw [hheap]
        exact getD_append_self st.heap _
      constructor
      · show ((st.allocateClause true id lits).1.inputClauseList.map
          Clause.core) = _
        unfold Store.inputClauseList
        rw [hrefs, List.map_filterMap, List.map_filterMap,
          List.filterMap_append, List.filterMap_congr hcore]
        congr 1
        rw [List.filterMap_cons, hnew]
        rfl
      · intro n hn
        show ∃ c, (st.allocateClause true id lits).1.clauseAt n = some c
          ∧ c.input = true
        have hn' : n ∈ (st.allocateClause true id lits).1.inputClauses := hn
        rw [hrefs] at hn'
        rcases List.mem_append.mp hn' with hold | hnewm
        · exact ref_ok_of_core st _ n (hcore n hold) (hinv n hold)
        · have hr : n = st.heap.length := by
            cases hnewm with
            | head => rfl
            | tail _ h => cases h
          subst hr
          exact ⟨_, hnew, rfl⟩

theorem applyOps_cores (st : Store) (ops : List StoreOp)
    (hinv : InputRefsOk st) :
    (applyOps st ops).inputClauseList.map Clause.core
      = st.inputClauseList.map Clause.core ++ inputCoresOf ops
    ∧ InputRefsOk (applyOps st ops) := by
  induction ops generalizing st with
  | nil => exact ⟨by simp [applyOps, inputCoresOf], hinv⟩
  | cons op rest ih =>
    obtain ⟨h1, h2⟩ := applyOp_cores st op hinv
    obtain ⟨h3, h4⟩ := ih (applyOp st op) h2
    refine ⟨?_, h4⟩
    show (applyOps (applyOp st op) rest).inputClauseList.map Clause.core = _
    rw [h3, h1, List.append_assoc]
    congr 1
    rw [show inputCoresOf [op] ++ inputCoresOf rest
        = ([op] ++ rest).filterMap _ from
      (List.filterMap_append _ _ _).symm]
    rfl

/-- C10: after any sequence of clause-store operations from a state
whose input-clause references are live, the list the model check
iterates consists of every input clause allocated so far (by `i`
lines), in order and with identifier, literal sequence and
tautological flag intact — deletion (`d`) and weakening (`w`) never
remove an entry from it; consequently a model line that passes
`check_line_satisfies_input_clauses` satisfies every previously
introduced non-tautological input clause, deleted or weakened ones
included. -/
theorem c10_model_checks_all_input_clauses (st : Store)
    (ops : List StoreOp) (lits : List Int) (hinv : InputRefsOk st) :
    (applyOps st ops).inputClauseList.map Clause.core
      = st.inputClauseList.map Clause.core ++ inputCoresOf ops
    ∧ ((∃ m', checkLineSatisfiesInputClauses lits
          (applyOps st ops).inputClauseList ∅ = .ok m') →
        ∀ id clits, StoreOp.alloc true id clits ∈ ops →
          (∃ x, x ≠ 0 ∧ x ∈ clits ∧ -x ∈ clits) ∨ ∃ l ∈ clits, l ∈ lits) := by
  obtain ⟨hlist, -⟩ := applyOps_cores st ops hinv
  refine ⟨hlist, ?_⟩
  intro hok id clits hmem
  have hsat := (checkLineSatisfiesInputClauses_ok_iff lits
    (applyOps st ops).inputClauseList).1 hok
  have hco : (id, true, clits, (lineIsTautological clits ∅).1)
      ∈ inputCoresOf ops :=
    List.mem_filterMap.2 ⟨.alloc true id clits, hmem, rfl⟩
  have hco2 : (id, true, clits, (lineIsTautological clits ∅).1)
      ∈ (applyOps st ops).inputClauseList.map Clause.core := by
    rw [hlist]
    exact List.mem_append.2 (Or.inr hco)
  rcases List.mem_map.1 hco2 with ⟨c, hc, hcc⟩
  have hlits : c.lits = clits := congrArg (fun p => p.2.2.1) hcc
  have htaut : c.tautological = (lineIsTautological clits ∅).1 :=
    congrArg (fun p => p.2.2.2) hcc
  rcases ht : (lineIsTautological clits ∅).1 with _ | _
  · right
    rw [ht] at htaut
    rcases hsat c hc htaut with ⟨l, hl, hml⟩
    rw [hlits] at hl
    exact ⟨l, hl, hml⟩
  · left
    exact (lineIsTautological_iff clits).1 ht

/-- The operation sequence of the witness run: an input clause
`i 1 1 2 0` is allocated, weakened and finally deleted. -/
def witOps : List StoreOp :=
  [.alloc true 1 [1, 2], .weak 0, .del 0]

/-- Witness for C10: from the empty store, after allocating the input
clause `[1, 2]`, weakening it and deleting it, the model check list
still consists of exactly that clause, and a passing model must
satisfy it. -/
theorem c10_model_checks_all_input_clauses_witness :
    InputRefsOk ⟨[], [], [], [], []⟩ ∧
    ((applyOps ⟨[], [], [], [], []⟩ witOps).inputClauseList.map Clause.core
        = (Store.inputClauseList ⟨[], [], [], [], []⟩).map Clause.core
            ++ inputCoresOf witOps
      ∧ ((∃ m', checkLineSatisfiesInputClauses [1]
            (applyOps ⟨[], [], [], [], []⟩ witOps).inputClauseList ∅
              = .ok m') →
          ∀ id clits, StoreOp.alloc true id clits ∈ witOps →
            (∃ x, x ≠ 0 ∧ x ∈ clits ∧ -x ∈ clits)
              ∨ ∃ l ∈ clits, l ∈ [1])) := by
  have hinv : InputRefsOk (⟨[], [], [], [], []⟩ : Store) := by
    intro r hr
    exact absurd hr (List.not_mem_nil r)
  exact ⟨hinv,
    c10_model_checks_all_input_clauses ⟨[], [], [], [], []⟩ witOps [1] hinv⟩

end LidrupCheck
